import Mathlib

/-!
# Verification of the `color_conv` color conversion library

This file embeds the `color_conv` Rust crate (RGB / HSL / CMYK / hex-string
conversions: `src/rgb.rs`, `src/hsl.rs`, `src/cmyk.rs`, `src/lib.rs`) into
Lean 4 and proves properties of the embedded functions.

The crate performs its conversion arithmetic in IEEE-754 binary64 floating
point (the crate-wide alias `Float` is f64, consistent with the explicit
`f64` in `cmyk.rs`; the alias itself lives in a prelude module not present
in the source listing).  We model binary64 exactly: every floating value
that occurs in these programs is a rational number, and every arithmetic
operation computes the exact rational result and then rounds it to a
53-bit significand with round-to-nearest, ties-to-even (`fround` below).
The magnitudes occurring in the embedded computations stay far inside the
normal range of binary64 (roughly between `2 ^ (-80)` and `2 ^ 16`), so
neither overflow, nor underflow to subnormals, nor inexact literals (all
literals in the source are small integers, exactly representable) has to
be modelled.  The one non-finite value reachable in the source is the
`0.0 / 0.0 = NaN` in `Rgb::_to_cmyk` at pure black; see the comment at
`fdiv`.

The rational arithmetic is written with kernel-computable primitives
(`Rat.normalize`, `Rat.divInt`, `Rat.neg`), because the library operations
`Rat.add` / `Rat.mul` / `Rat.inv` are `@[irreducible]` and block `decide`;
the lemmas `qadd_eq`, `qsub_eq`, `qmul_eq`, `qdiv_eq`, `qabs_eq`,
`qmax_eq` identify them with the ordinary field operations of `ℚ`, and
all proofs go through those.
-/

/-! ## Kernel-computable rational arithmetic -/

/-- Rational addition, kernel-computable. -/
def qadd (a b : ℚ) : ℚ :=
  Rat.normalize (a.num * b.den + b.num * a.den) (a.den * b.den)
    (Nat.mul_ne_zero a.den_nz b.den_nz)

/-- Rational multiplication, kernel-computable. -/
def qmul (a b : ℚ) : ℚ :=
  Rat.normalize (a.num * b.num) (a.den * b.den) (Nat.mul_ne_zero a.den_nz b.den_nz)

/-- Rational subtraction, kernel-computable. -/
def qsub (a b : ℚ) : ℚ := qadd a (Rat.neg b)

/-- Rational division, kernel-computable, with the `q / 0 = 0` convention
of `ℚ`. -/
def qdiv (a b : ℚ) : ℚ := Rat.divInt (a.num * b.den) (a.den * b.num)

/-- Rational absolute value, kernel-computable. -/
def qabs (a : ℚ) : ℚ := if a < 0 then Rat.neg a else a

/-- Rational binary maximum, kernel-computable. -/
def qmax (a b : ℚ) : ℚ := if a < b then b else a

theorem qadd_eq (a b : ℚ) : qadd a b = a + b := by
  have ha : ((a.den : ℚ)) ≠ 0 := Nat.cast_ne_zero.mpr a.den_nz
  have hb : ((b.den : ℚ)) ≠ 0 := Nat.cast_ne_zero.mpr b.den_nz
  rw [qadd, Rat.normalize_eq_mkRat, Rat.mkRat_eq_divInt, Rat.divInt_eq_div]
  push_cast
  conv_rhs => rw [← Rat.num_div_den a, ← Rat.num_div_den b]
  rw [div_add_div _ _ ha hb]
  ring_nf

theorem qmul_eq (a b : ℚ) : qmul a b = a * b := by
  have ha : ((a.den : ℚ)) ≠ 0 := Nat.cast_ne_zero.mpr a.den_nz
  have hb : ((b.den : ℚ)) ≠ 0 := Nat.cast_ne_zero.mpr b.den_nz
  rw [qmul, Rat.normalize_eq_mkRat, Rat.mkRat_eq_divInt, Rat.divInt_eq_div]
  push_cast
  conv_rhs => rw [← Rat.num_div_den a, ← Rat.num_div_den b]
  rw [div_mul_div_comm]

theorem rat_neg_eq (a : ℚ) : Rat.neg a = -a := rfl

theorem qsub_eq (a b : ℚ) : qsub a b = a - b := by
  rw [qsub, rat_neg_eq, qadd_eq, sub_eq_add_neg]

theorem qdiv_eq (a b : ℚ) : qdiv a b = a / b := by
  rcases eq_or_ne b 0 with rfl | hb
  · simp [qdiv]
  · have hbn : (b.num : ℚ) ≠ 0 := Int.cast_ne_zero.mpr (Rat.num_ne_zero.mpr hb)
    have ha : ((a.den : ℚ)) ≠ 0 := Nat.cast_ne_zero.mpr a.den_nz
    have hd : ((b.den : ℚ)) ≠ 0 := Nat.cast_ne_zero.mpr b.den_nz
    rw [qdiv, Rat.divInt_eq_div]
    push_cast
    rw [div_eq_div_iff (mul_ne_zero ha hbn) hb]
    have h1 : a * (a.den : ℚ) = a.num := (eq_div_iff ha).mp (Rat.num_div_den a).symm
    have h2 : b * (b.den : ℚ) = b.num := (eq_div_iff hd).mp (Rat.num_div_den b).symm
    rw [← h1, ← h2]
    ring

theorem qabs_eq (a : ℚ) : qabs a = |a| := by
  rw [qabs]
  rcases lt_or_le a 0 with h | h
  · rw [if_pos h, rat_neg_eq, abs_of_neg h]
  · rw [if_neg (not_lt.mpr h), abs_of_nonneg h]

theorem qmax_eq (a b : ℚ) : qmax a b = max a b := by
  rw [qmax]
  rcases lt_or_le a b with h | h
  · rw [if_pos h, max_eq_right h.le]
  · rw [if_neg (not_lt.mpr h), max_eq_left h]

/-! ## The binary64 model -/

/-- Iterative core of `nlog2` (structural recursion on a fuel argument so
that the kernel can evaluate it). -/
def log2fuel : ℕ → ℕ → ℕ
  | 0, _ => 0
  | fuel + 1, n => if n < 2 then 0 else log2fuel fuel (n / 2) + 1

/-- The base-2 logarithm `⌊log₂ n⌋` of a natural number (`0` for `n ≤ 1`). -/
def nlog2 (n : ℕ) : ℕ := log2fuel n n

/-- Floor of a rational, computed with integer floor division. -/
def qfloor (q : ℚ) : ℤ := Int.fdiv q.num q.den

/-- The rational `2 ^ e` for an integer exponent `e`. -/
def pow2 (e : ℤ) : ℚ :=
  if 0 ≤ e then ((2 ^ e.toNat : ℕ) : ℚ) else Rat.divInt 1 ((2 ^ (-e).toNat : ℕ) : ℤ)

/-- The rational one half. -/
def qhalf : ℚ := Rat.divInt 1 2

/-- Round a rational to the nearest integer, ties to even (the IEEE-754
significand rounding rule). -/
def rne (q : ℚ) : ℤ :=
  let f := qfloor q
  let r := qsub q (f : ℚ)
  if r < qhalf then f
  else if qhalf < r then f + 1
  else if f % 2 = 0 then f else f + 1

/-- The binary exponent of a nonzero rational: the unique `e` with
`2 ^ e ≤ |q| < 2 ^ (e + 1)` (junk value at `0`). -/
def qexp (q : ℚ) : ℤ :=
  if 1 ≤ qabs q then (nlog2 (qfloor (qabs q)).toNat : ℤ)
  else
    let t := nlog2 (q.den / q.num.natAbs)
    if qmul (qabs q) (pow2 t) = 1 then -(t : ℤ) else -(t : ℤ) - 1

/-- Round a rational to the nearest IEEE-754 binary64 value (53
significant bits, round to nearest, ties to even).  Overflow and
subnormals are not modelled; they are unreachable in the embedded
programs. -/
def fround (q : ℚ) : ℚ :=
  if q = 0 then 0
  else
    let e := qexp q
    qmul ((rne (qmul q (pow2 (52 - e))) : ℤ) : ℚ) (pow2 (e - 52))

/-- binary64 addition. -/
def fadd (x y : ℚ) : ℚ := fround (qadd x y)

/-- binary64 subtraction. -/
def fsub (x y : ℚ) : ℚ := fround (qsub x y)

/-- binary64 multiplication. -/
def fmul (x y : ℚ) : ℚ := fround (qmul x y)

/-- binary64 division.  IEEE-754 division by zero yields `NaN` (for a zero
numerator) or `±∞`, which a rational model cannot represent; `ℚ` gives
`x / 0 = 0`.  In the embedded programs the only reachable zero divisor is
`(1. - v - key) / (1. - key)` in `Rgb::_to_cmyk` at pure black, where the
numerator is exactly `0` as well and the resulting `NaN` is consumed by an
`as u8` cast, which maps `NaN` to `0` — the same `u8` that the `ℚ`
convention produces (`0 / 0 = 0` and `(0 * 100).round() as u8 = 0`), so
the two models agree on every reachable input. -/
def fdiv (x y : ℚ) : ℚ := fround (qdiv x y)

/-- Truncation of a rational toward zero (the rounding the `as` casts
use). -/
def qtrunc (x : ℚ) : ℤ := if 0 ≤ x then qfloor x else -qfloor (Rat.neg x)

/-- Rust's `%` on floats: the exact remainder `x - trunc(x / y) * y`, with
the sign of the dividend.  `fmod` of two binary64 values is itself exactly
representable, so no rounding step is applied. -/
def fmod (x y : ℚ) : ℚ := qsub x (qmul ((qtrunc (qdiv x y) : ℤ) : ℚ) y)

/-- Round half away from zero: the semantics of Rust's `f64::round`.  The
result is integral and (at these magnitudes) exactly representable; we
return the integer. -/
def rhalfAway (x : ℚ) : ℤ :=
  if 0 ≤ x then qfloor (qadd x qhalf) else -qfloor (qadd (Rat.neg x) qhalf)

/-- Rust's `f64::round` as a float-to-float map. -/
def f64round (x : ℚ) : ℚ := ((rhalfAway x : ℤ) : ℚ)

/-- Rust's `as u8` cast on a float: truncate toward zero, saturate to
`[0, 255]` (`NaN`, which the `ℚ` model cannot represent, casts to `0`). -/
def asU8 (x : ℚ) : ℕ := (min (max (qtrunc x) 0) 255).toNat

/-- Rust's `as u16` cast on a float: truncate toward zero, saturate to
`[0, 65535]`. -/
def asU16 (x : ℚ) : ℕ := (min (max (qtrunc x) 0) 65535).toNat

/-- The constant `f64::EPSILON = 2 ^ (-52)`. -/
def fEPSILON : ℚ := Rat.divInt 1 4503599627370496

/-! ## The data model

The struct fields are `u8` / `u16` machine integers; no arithmetic in the
crate is performed on the integer fields themselves (they are only
compared and converted to float), so they are modelled as `ℕ`, with
explicit `≤ 255` hypotheses where a claim depends on the machine range. -/

/-- The struct `Rgb` (`src/rgb.rs`): `red`, `green`, `blue` are `u8`. -/
structure Rgb where
  red : ℕ
  green : ℕ
  blue : ℕ
deriving DecidableEq, Repr

/-- The struct `Hsl` (`src/hsl.rs`): `hue` is `u16`, `saturation` and
`lightness` are `u8`. -/
structure Hsl where
  hue : ℕ
  saturation : ℕ
  lightness : ℕ
deriving DecidableEq, Repr

/-- The struct `Cmyk` (`src/cmyk.rs`): all four fields are `u8`. -/
structure Cmyk where
  cyan : ℕ
  magenta : ℕ
  yellow : ℕ
  key : ℕ
deriving DecidableEq, Repr

/-- The crate-wide `Error` enum (`src/lib.rs` / `src/error.rs`). -/
inductive CError where
  | PercentageOverflow
  | DegreeOverflow
deriving DecidableEq, Repr

/-- The constructor `Hsl::new` (`src/hsl.rs` lines 41–51): the percentage
check runs first, then the degree check. -/
def Hsl.new (hue saturation lightness : ℕ) : Except CError Hsl :=
  if ¬(saturation ≤ 100 ∧ lightness ≤ 100) then .error .PercentageOverflow
  else if 360 < hue then .error .DegreeOverflow
  else .ok ⟨hue, saturation, lightness⟩

/-- The constructor `Hsl::new_unchecked` (`src/hsl.rs` lines 65–71). -/
def Hsl.new_unchecked (hue saturation lightness : ℕ) : Hsl :=
  ⟨hue, saturation, lightness⟩

/-- The constructor `Cmyk::new` (`src/cmyk.rs` lines 36–42): errors unless
all four arguments are `≤ 100`. -/
def Cmyk.new (cyan magenta yellow key : ℕ) : Except CError Cmyk :=
  if ¬(cyan ≤ 100 ∧ magenta ≤ 100 ∧ yellow ≤ 100 ∧ key ≤ 100) then
    .error .PercentageOverflow
  else .ok ⟨cyan, magenta, yellow, key⟩

/-- The constructor `Cmyk::new_unchecked` (`src/cmyk.rs` lines 55–62). -/
def Cmyk.new_unchecked (cyan magenta yellow key : ℕ) : Cmyk :=
  ⟨cyan, magenta, yellow, key⟩

/-- The constructor `Rgb::new` (`src/rgb.rs` lines 42–44): no
validation. -/
def Rgb.new (red green blue : ℕ) : Rgb := ⟨red, green, blue⟩

/-! ## Conversions out of `Rgb` (`src/rgb.rs`) -/

/-- The private helper `Rgb::_to_cmyk` (`src/rgb.rs` lines 46–63).  The
fold `[r', g', b'].iter().fold(Float::NAN, Float::max)` starts from `NaN`,
which `f64::max` discards, so it computes `max (max r' g') b'`. -/
def Rgb._to_cmyk (s : Rgb) : ℕ × ℕ × ℕ × ℕ :=
  let r_prime := fdiv (s.red : ℚ) 255
  let g_prime := fdiv (s.green : ℚ) 255
  let b_prime := fdiv (s.blue : ℚ) 255
  let key := fsub 1 (qmax (qmax r_prime g_prime) b_prime)
  let apply := fun v => asU8 (f64round (fmul (fdiv (fsub (fsub 1 v) key) (fsub 1 key)) 100))
  (apply r_prime, apply g_prime, apply b_prime, asU8 (fmul key 100))

/-- The method `Rgb::to_cmyk` (`src/rgb.rs` lines 81–84): repackages
`_to_cmyk` through `Cmyk::new_unchecked`. -/
def Rgb.toCmyk (s : Rgb) : Cmyk :=
  Cmyk.new_unchecked s._to_cmyk.1 s._to_cmyk.2.1 s._to_cmyk.2.2.1 s._to_cmyk.2.2.2

/-- The method `Rgb::to_hsl` (`src/rgb.rs` lines 86–119).  The source's
`match c_max` with guards `x if x == r_prime`, … is an ordered floating
equality test; the fall-through arm `panic!("Invalid hue calculation!")`
is modelled as `none`. -/
def Rgb.toHsl (s : Rgb) : Option Hsl :=
  let r_prime := fdiv (s.red : ℚ) 255
  let g_prime := fdiv (s.green : ℚ) 255
  let b_prime := fdiv (s.blue : ℚ) 255
  let c_max := fdiv ((max (max s.red s.green) s.blue : ℕ) : ℚ) 255
  let c_min := fdiv ((min (min s.red s.green) s.blue : ℕ) : ℚ) 255
  let delta := fsub c_max c_min
  let hue? : Option ℕ :=
    if qabs delta < fEPSILON then some 0
    else if c_max = r_prime then
      some (asU16 (f64round (fmul 60 (fmod (fdiv (fsub g_prime b_prime) delta) 6))))
    else if c_max = g_prime then
      some (asU16 (f64round (fmul 60 (fadd (fdiv (fsub b_prime r_prime) delta) 2))))
    else if c_max = b_prime then
      some (asU16 (f64round (fmul 60 (fadd (fdiv (fsub r_prime g_prime) delta) 4))))
    else none
  hue?.map fun hue =>
    let lightness := fdiv (fadd c_max c_min) 2
    let saturation :=
      if qabs delta < fEPSILON then 0
      else asU8 (f64round (fmul (fdiv delta (fsub 1 (fsub (fmul 2 lightness) 1))) 100))
    ⟨hue, saturation, asU8 (f64round (fmul lightness 100))⟩

/-- One lowercase hexadecimal digit (`core::fmt::LowerHex`). -/
def hexChar (n : ℕ) : Char :=
  if n < 10 then Char.ofNat (48 + n) else Char.ofNat (97 + (n - 10))

/-- The two characters `{:0>2x}` produces for a `u8` value: lowercase hex
digits, left-padded with `'0'` to width 2 (a `u8` has at most two). -/
def hexByte (n : ℕ) : List Char :=
  if n < 16 then ['0', hexChar n] else [hexChar (n / 16), hexChar (n % 16)]

/-- The method `Rgb::to_hex_string` (`src/rgb.rs` lines 77–79):
`format!("#{:0>2x}{:0>2x}{:0>2x}", red, green, blue)`. -/
def Rgb.toHexString (s : Rgb) : String :=
  ⟨'#' :: (hexByte s.red ++ hexByte s.green ++ hexByte s.blue)⟩

/-! ## Conversions out of `Hsl` (`src/hsl.rs`) -/

/-- The method `Hsl::to_rgb` (`src/hsl.rs` lines 99–120).  The macro
`exclusive_range_workaround!` matches `hue` against the six half-open
ranges `0..60`, …, `300..360` in order; its fall-through arm
`panic!("Unexpected hue: {}, larger than 360!", hue)` is modelled as
`none`. -/
def Hsl.toRgb (s : Hsl) : Option Rgb :=
  let c := fmul (fsub 1 (qabs (fsub (fmul 2 (fdiv (s.lightness : ℚ) 100)) 1)))
    (fdiv (s.saturation : ℚ) 100)
  let x := fmul c (fsub 1 (qabs (fsub (fmod (fdiv (s.hue : ℚ) 60) 2) 1)))
  let m := fsub (fdiv (s.lightness : ℚ) 100) (fdiv c 2)
  let sector? : Option (ℚ × ℚ × ℚ) :=
    if s.hue < 60 then some (c, x, 0)
    else if s.hue < 120 then some (x, c, 0)
    else if s.hue < 180 then some (0, c, x)
    else if s.hue < 240 then some (0, x, c)
    else if s.hue < 300 then some (x, 0, c)
    else if s.hue < 360 then some (c, 0, x)
    else none
  sector?.map fun t =>
    let apply := fun v => asU8 (f64round (fmul (fadd v m) 255))
    ⟨apply t.1, apply t.2.1, apply t.2.2⟩

/-- The method `Hsl::to_cmyk` (`src/hsl.rs` lines 122–124): delegates
through `to_rgb` (which can panic at `hue ≥ 360`, hence `Option`). -/
def Hsl.toCmyk (s : Hsl) : Option Cmyk := s.toRgb.map Rgb.toCmyk

/-- The method `Hsl::to_hex_string` (`src/hsl.rs` lines 126–128):
delegates through `to_rgb`. -/
def Hsl.toHexString (s : Hsl) : Option String := s.toRgb.map Rgb.toHexString

/-! ## Conversions out of `Cmyk` (`src/cmyk.rs`) -/

/-- The method `Cmyk::to_rgb` (`src/cmyk.rs` lines 76–85):
`(255. * (1. - v / 100.) * (1. - key / 100.)).round() as u8` for each of
cyan, magenta, yellow. -/
def Cmyk.toRgb (s : Cmyk) : Rgb :=
  let apply := fun (v : ℕ) =>
    asU8 (f64round (fmul (fmul 255 (fsub 1 (fdiv (v : ℚ) 100))) (fsub 1 (fdiv (s.key : ℚ) 100))))
  ⟨apply s.cyan, apply s.magenta, apply s.yellow⟩

/-- The method `Cmyk::to_hsl` (`src/cmyk.rs` lines 95–97): delegates
through `to_rgb`. -/
def Cmyk.toHsl (s : Cmyk) : Option Hsl := s.toRgb.toHsl

/-! ## Spec-side definitions

These definitions transcribe formulas from the specification's words (not
from the source); they exist to be compared against the embedded code. -/

/-- The key channel prescribed by the spec's words: `round(k × 100)` with
`k = 1 - max(red, green, blue)/255`, rounding to nearest integer (half
away from zero, the spec's stated rounding mode), computed exactly. -/
def specKeyRound (red green blue : ℕ) : ℤ :=
  rhalfAway (qmul (qsub 1 (qdiv ((max (max red green) blue : ℕ) : ℚ) 255)) 100)

theorem specKeyRound_eq (red green blue : ℕ) :
    specKeyRound red green blue =
      rhalfAway ((1 - ((max (max red green) blue : ℕ) : ℚ) / 255) * 100) := by
  rw [specKeyRound, qmul_eq, qsub_eq, qdiv_eq]

/-- The output channel prescribed by the spec's words for `Cmyk::to_rgb`:
`round(255 × (1 − v/100) × (1 − key/100))`, computed exactly, rounding
half away from zero. -/
def specCmykChannel (v key : ℕ) : ℤ :=
  rhalfAway (qmul (qmul 255 (qsub 1 (qdiv (v : ℚ) 100))) (qsub 1 (qdiv (key : ℚ) 100)))

theorem specCmykChannel_eq (v key : ℕ) :
    specCmykChannel v key =
      rhalfAway (255 * (1 - (v : ℚ) / 100) * (1 - (key : ℚ) / 100)) := by
  rw [specCmykChannel, qmul_eq, qmul_eq, qsub_eq, qsub_eq, qdiv_eq, qdiv_eq]

/-- Two naturals within one unit of each other (the spec's "±1"
tolerance). -/
def withinOne (a b : ℕ) : Prop := a ≤ b + 1 ∧ b ≤ a + 1

instance (a b : ℕ) : Decidable (withinOne a b) := by
  unfold withinOne
  infer_instance

instance exceptDecEq {ε α : Type} [DecidableEq ε] [DecidableEq α] :
    DecidableEq (Except ε α) := fun x y =>
  match x, y with
  | .ok a, .ok b =>
    if h : a = b then isTrue (by rw [h]) else isFalse (by simp [h])
  | .ok _, .error _ => isFalse (by simp)
  | .error _, .ok _ => isFalse (by simp)
  | .error e, .error f =>
    if h : e = f then isTrue (by rw [h]) else isFalse (by simp [h])

/-! ## Claim theorems -/

set_option maxRecDepth 100000

/-- Claim C1 (code_bug evaluation): the input `hue = 360` is accepted by
the validating constructor `Hsl::new`, but `Hsl::to_rgb` panics on it
(modelled as `none`): `360` falls outside all six half-open sectors and
hits the `panic!("Unexpected hue: {}, larger than 360!")` arm — whose own
message documents that only hues larger than 360 were meant to be
unreachable.  The hue-0 input, which the claim says `360` should match,
converts to `rgb(255, 0, 0)`. -/
theorem C1_hue360_panics :
    Hsl.new 360 100 50 = .ok (Hsl.new_unchecked 360 100 50) ∧
    (Hsl.new_unchecked 360 100 50).toRgb = none ∧
    (Hsl.new_unchecked 0 100 50).toRgb = some (Rgb.new 255 0 0) := by
  decide

/-- Claim C2 (counterexample): the valid input `hsl(240, 100, 0)` converts
to `rgb(0, 0, 0)` and back to `hsl(0, 0, 0)`: its saturation (100) is
reproduced as `0`, far outside the claimed ±1 tolerance, and its input
saturation is not `0`, so the claimed achromatic exception does not
apply. -/
theorem C2_counterexample :
    (Hsl.new_unchecked 240 100 0).toRgb = some (Rgb.new 0 0 0) ∧
    (Rgb.new 0 0 0).toHsl = some (Hsl.new_unchecked 0 0 0) ∧
    ¬withinOne 0 100 := by
  decide

/-- Claim C3 (counterexample): at `rgb(128, 128, 128)` the code's key
channel is `49` (the `(key * 100.) as u8` cast truncates), while the
spec's `round(k × 100)` is `50` (`k·100 = 49.80…`). -/
theorem C3_counterexample :
    (Rgb.new 128 128 128).toCmyk.key = 49 ∧ specKeyRound 128 128 128 = 50 := by
  decide

/-- Claim C4: `Rgb::to_cmyk` at pure black.  `key = 1` makes the
per-channel formula `(1 - v - key) / (1 - key)` evaluate `0 / 0`; the
result is `cyan = magenta = yellow = 0` with `key = 100`, not a fault.
The second conjunct exhibits the degenerate division: at black, the
denominator `1 - key` and the numerator `1 - v - key` are both exactly
zero. -/
theorem C4_black_to_cmyk :
    (Rgb.new 0 0 0).toCmyk = Cmyk.new_unchecked 0 0 0 100 ∧
    (let v := fdiv ((0 : ℕ) : ℚ) 255
     let key := fsub 1 (qmax (qmax v v) v)
     fsub 1 key = 0 ∧ fsub (fsub 1 v) key = 0) := by
  decide

/-- Claim C5: `Hsl::new` returns `PercentageOverflow` when saturation or
lightness exceeds 100, `DegreeOverflow` when (only) the hue exceeds 360,
and otherwise succeeds with the given fields; the percentage check runs
first, so `Hsl::new(361, 101, 101) = PercentageOverflow`. -/
theorem C5_hsl_new :
    (∀ h s l : ℕ,
      Hsl.new h s l =
        if 100 < s ∨ 100 < l then .error .PercentageOverflow
        else if 360 < h then .error .DegreeOverflow
        else .ok (Hsl.new_unchecked h s l)) ∧
    Hsl.new 361 101 101 = .error .PercentageOverflow := by
  constructor
  · intro h s l
    rw [Hsl.new, Hsl.new_unchecked]
    by_cases hp : 100 < s ∨ 100 < l
    · rw [if_pos (by omega), if_pos hp]
    · rw [if_neg (by omega), if_neg hp]
  · decide

/-- Claim C8: `Cmyk::new` returns `PercentageOverflow` exactly when one of
the four arguments exceeds 100, and otherwise succeeds with the given
fields; in particular `Cmyk::new(255, 255, 255, 255)` fails. -/
theorem C8_cmyk_new :
    (∀ c m y k : ℕ,
      Cmyk.new c m y k =
        if 100 < c ∨ 100 < m ∨ 100 < y ∨ 100 < k then .error .PercentageOverflow
        else .ok (Cmyk.new_unchecked c m y k)) ∧
    Cmyk.new 255 255 255 255 = .error .PercentageOverflow := by
  constructor
  · intro c m y k
    rw [Cmyk.new, Cmyk.new_unchecked]
    by_cases hp : 100 < c ∨ 100 < m ∨ 100 < y ∨ 100 < k
    · rw [if_pos (by omega), if_pos hp]
    · rw [if_neg (by omega), if_neg hp]
  · decide

/-- Claim C6 (counterexample): at `cmyk(90, 0, 0, 0)` the code computes
the red channel `25` (the floating product `255 × (1 − 0.9)` evaluates to
`25.499999999999996…`), while the spec's exact
`round(255 × (1 − 90/100) × (1 − 0/100)) = round(25.5) = 26`. -/
theorem C6_counterexample :
    (Cmyk.new_unchecked 90 0 0 0).toRgb.red = 25 ∧ specCmykChannel 90 0 = 26 := by
  decide

/-- The sixteen lowercase hexadecimal digit characters: the ten decimal
digits followed by the six letters `a`–`f`. -/
def lowerHexDigits : List Char :=
  ['0', '1', '2', '3', '4', '5', '6', '7', '8', '9'] ++ ['a', 'b', 'c', 'd', 'e', 'f']

theorem hexChar_mem (n : ℕ) (h : n < 16) : hexChar n ∈ lowerHexDigits := by
  interval_cases n <;> decide

theorem hexByte_length (n : ℕ) : (hexByte n).length = 2 := by
  rw [hexByte]
  split <;> rfl

theorem hexByte_mem (n : ℕ) (h : n ≤ 255) : ∀ c ∈ hexByte n, c ∈ lowerHexDigits := by
  rw [hexByte]
  split
  next h16 =>
    intro c hc
    rcases List.mem_cons.mp hc with rfl | hc
    · decide
    · rcases List.mem_singleton.mp hc with rfl
      exact hexChar_mem n h16
  next h16 =>
    intro c hc
    rcases List.mem_cons.mp hc with rfl | hc
    · exact hexChar_mem _ (by omega)
    · rcases List.mem_singleton.mp hc with rfl
      exact hexChar_mem _ (Nat.mod_lt n (by omega))

/-- Claim C7: for `u8` channels, `Rgb::to_hex_string` is a 7-character
string: `'#'` followed by six lowercase hex digits (two zero-padded per
channel, in red, green, blue order); `rgb(30, 50, 60)` renders as
`"#1e323c"` and zero channels render as `"00"`. -/
theorem C7_hex_string :
    (∀ s : Rgb, s.red ≤ 255 → s.green ≤ 255 → s.blue ≤ 255 →
      s.toHexString.length = 7 ∧
      s.toHexString.data.head? = some '#' ∧
      ∀ c ∈ s.toHexString.data.tail, c ∈ lowerHexDigits) ∧
    (Rgb.new 30 50 60).toHexString = "#1e323c" ∧
    (Rgb.new 0 0 0).toHexString = "#000000" := by
  refine ⟨fun s hr hg hb => ⟨?_, ?_, ?_⟩, by decide, by decide⟩
  · show (String.mk _).length = 7
    simp [String.length, Rgb.toHexString, hexByte_length]
  · rfl
  · rw [Rgb.toHexString]
    intro c hc
    simp only [List.tail_cons, List.mem_append] at hc
    rcases hc with (hc | hc) | hc
    · exact hexByte_mem s.red hr c hc
    · exact hexByte_mem s.green hg c hc
    · exact hexByte_mem s.blue hb c hc

/-- Witness for C7 at `rgb(30, 50, 60)`. -/
theorem C7_hex_string_witness :
    (30 ≤ 255 ∧ 50 ≤ 255 ∧ 60 ≤ 255) ∧
      ((Rgb.new 30 50 60).toHexString.length = 7 ∧
       (Rgb.new 30 50 60).toHexString.data.head? = some '#' ∧
       ∀ c ∈ (Rgb.new 30 50 60).toHexString.data.tail, c ∈ lowerHexDigits) :=
  ⟨⟨by decide, by decide, by decide⟩,
    C7_hex_string.1 (Rgb.new 30 50 60) (by decide) (by decide) (by decide)⟩


theorem isSome_map_of {γ : Type} (o : Option ℕ) (f : ℕ → γ) (h : o.isSome = true) :
    (o.map f).isSome = true := by
  cases o
  · simp at h
  · rfl

theorem ifChain_isSome (P A B C : Prop) [Decidable P] [Decidable A] [Decidable B]
    [Decidable C] (u v w : ℕ) (hd : A ∨ B ∨ C) :
    (if P then some 0 else if A then some u else if B then some v
     else if C then some w else none).isSome = true := by
  split_ifs <;> simp_all

set_option maxHeartbeats 1000000 in
/-- Claim C9: in `Rgb::to_hsl`, the value `c_max` (the integer maximum of
the channels divided by 255) always equals at least one of `r′`, `g′`,
`b′` — the maximum of the three `u8` channels is one of them, and both are
divided by 255 by the same operation — so the guarded `match` always
selects an arm: the `panic!("Invalid hue calculation!")` branch is
unreachable and `to_hsl` returns a value for every RGB input. -/
theorem C9_to_hsl_total :
    ∀ s : Rgb,
      (fdiv ((max (max s.red s.green) s.blue : ℕ) : ℚ) 255 = fdiv (s.red : ℚ) 255 ∨
       fdiv ((max (max s.red s.green) s.blue : ℕ) : ℚ) 255 = fdiv (s.green : ℚ) 255 ∨
       fdiv ((max (max s.red s.green) s.blue : ℕ) : ℚ) 255 = fdiv (s.blue : ℚ) 255) ∧
      s.toHsl.isSome = true := by
  intro s
  have hd : fdiv ((max (max s.red s.green) s.blue : ℕ) : ℚ) 255 = fdiv (s.red : ℚ) 255 ∨
      fdiv ((max (max s.red s.green) s.blue : ℕ) : ℚ) 255 = fdiv (s.green : ℚ) 255 ∨
      fdiv ((max (max s.red s.green) s.blue : ℕ) : ℚ) 255 = fdiv (s.blue : ℚ) 255 := by
    rcases max_choice (max s.red s.green) s.blue with h | h
    · rcases max_choice s.red s.green with h2 | h2
      · left; rw [h, h2]
      · right; left; rw [h, h2]
    · right; right; rw [h]
  refine ⟨hd, ?_⟩
  rw [Rgb.toHsl]
  exact isSome_map_of _ _ (ifChain_isSome _ _ _ _ _ _ _ hd)
/-! ## Properties of the binary64 rounding -/

theorem qfloor_eq (q : ℚ) : qfloor q = ⌊q⌋ := by
  rw [qfloor, Int.fdiv_eq_ediv _ (by positivity), Rat.floor_def]

theorem pow2_eq (e : ℤ) : pow2 e = (2 : ℚ) ^ e := by
  rw [pow2]
  split
  next h =>
    push_cast
    rw [← zpow_natCast, Int.toNat_of_nonneg h]
  next h =>
    rw [Rat.divInt_eq_div]
    push_cast
    rw [one_div, ← zpow_natCast, ← zpow_neg]
    congr 1
    omega

theorem qhalf_eq : qhalf = 1 / 2 := by
  rw [qhalf, Rat.divInt_eq_div]
  norm_num

theorem rne_eq_floor_or (q : ℚ) : rne q = ⌊q⌋ ∨ rne q = ⌊q⌋ + 1 := by
  rw [rne]
  simp only [qsub_eq, qhalf_eq, qfloor_eq]
  split_ifs <;> simp

theorem floor_le_rne (q : ℚ) : ⌊q⌋ ≤ rne q := by
  rcases rne_eq_floor_or q with h | h <;> omega

theorem rne_le_floor_add_one (q : ℚ) : rne q ≤ ⌊q⌋ + 1 := by
  rcases rne_eq_floor_or q with h | h <;> omega

theorem rne_err (q : ℚ) : |(rne q : ℚ) - q| ≤ 1 / 2 := by
  have hf : (⌊q⌋ : ℚ) ≤ q := Int.floor_le q
  have hf1 : q < ⌊q⌋ + 1 := Int.lt_floor_add_one q
  rw [rne]
  simp only [qsub_eq, qhalf_eq, qfloor_eq]
  split_ifs with h1 h2 h3
  · rw [abs_sub_comm, abs_of_nonneg (by linarith)]
    linarith
  · rw [abs_of_nonneg (by push_cast; linarith)]
    push_cast
    linarith
  · rw [abs_sub_comm, abs_of_nonneg (by linarith)]
    linarith
  · rw [abs_of_nonneg (by push_cast; linarith)]
    push_cast
    linarith

theorem rne_intCast (n : ℤ) : rne (n : ℚ) = n := by
  rw [rne]
  simp only [qsub_eq, qhalf_eq, qfloor_eq, Int.floor_intCast, sub_self]
  norm_num

theorem rne_mono {q r : ℚ} (h : q ≤ r) : rne q ≤ rne r := by
  rcases lt_or_eq_of_le (Int.floor_le_floor h) with hf | hf
  · calc rne q ≤ ⌊q⌋ + 1 := rne_le_floor_add_one q
    _ ≤ ⌊r⌋ := by omega
    _ ≤ rne r := floor_le_rne r
  · rw [rne, rne]
    simp only [qsub_eq, qhalf_eq, qfloor_eq, hf]
    have hqr : q - ⌊r⌋ ≤ r - ⌊r⌋ := by linarith
    split_ifs with h1 h2 h3 h4 h5 h6 h7 <;> try omega
    all_goals (exfalso; try linarith)

theorem rne_neg (q : ℚ) : rne (-q) = -rne q := by
  rcases eq_or_ne (q : ℚ) (⌊q⌋ : ℚ) with hint | hint
  · rw [hint, ← Int.cast_neg, rne_intCast, rne_intCast]
  · have hfr : (0 : ℚ) < q - ⌊q⌋ := by
      have := Int.floor_le q
      rcases lt_or_eq_of_le this with h | h
      · linarith
      · exact absurd h.symm hint
    have hfr1 : q - ⌊q⌋ < 1 := by
      have := Int.lt_floor_add_one q
      push_cast at this ⊢
      linarith
    have hnegfloor : ⌊-q⌋ = -⌊q⌋ - 1 := by
      rw [Int.floor_eq_iff]
      constructor
      · push_cast
        linarith
      · push_cast
        linarith
    rw [rne, rne]
    simp only [qsub_eq, qhalf_eq, qfloor_eq, hnegfloor]
    push_cast
    split_ifs with h1 h2 h3 h4 h5 h6 h7 <;> first
      | omega
      | (exfalso; linarith)

theorem log2fuel_spec :
    ∀ fuel n : ℕ, 1 ≤ n → n ≤ fuel →
      2 ^ log2fuel fuel n ≤ n ∧ n < 2 ^ (log2fuel fuel n + 1) := by
  intro fuel
  induction fuel with
  | zero => intro n h1 h2; omega
  | succ f ih =>
    intro n h1 h2
    rw [log2fuel]
    by_cases hn : n < 2
    · rw [if_pos hn]
      constructor <;> simp <;> omega
    · rw [if_neg hn]
      have hrec := ih (n / 2) (by omega) (by omega)
      rcases hrec with ⟨ha, hb⟩
      constructor
      · rw [pow_succ]
        omega
      · rw [pow_succ]
        omega

theorem nlog2_spec (n : ℕ) (h : 1 ≤ n) :
    2 ^ nlog2 n ≤ n ∧ n < 2 ^ (nlog2 n + 1) :=
  log2fuel_spec n n h le_rfl

theorem abs_eq_natAbs_div_den (q : ℚ) : |q| = (q.num.natAbs : ℚ) / q.den := by
  rcases le_or_lt 0 q with h | h
  · have hn : (0 : ℤ) ≤ q.num := Rat.num_nonneg.mpr h
    rw [abs_of_nonneg h]
    conv_lhs => rw [← Rat.num_div_den q]
    congr 1
    rw [Int.cast_natAbs]
    exact_mod_cast (abs_of_nonneg hn).symm
  · have hn : q.num < 0 := Rat.num_neg.mpr h
    rw [abs_of_neg h]
    conv_lhs => rw [← Rat.num_div_den q]
    rw [← neg_div]
    congr 1
    rw [Int.cast_natAbs]
    exact_mod_cast (abs_of_neg hn).symm

theorem nat_lt_div_succ_mul (b a : ℕ) (ha : 0 < a) : b < (b / a + 1) * a := by
  have hmod : b % a < a := Nat.mod_lt b ha
  have hdm : a * (b / a) + b % a = b := Nat.div_add_mod b a
  calc b = a * (b / a) + b % a := hdm.symm
  _ < a * (b / a) + a := Nat.add_lt_add_left hmod _
  _ = (b / a + 1) * a := by ring

theorem qexp_spec (q : ℚ) (hq : q ≠ 0) :
    (2 : ℚ) ^ qexp q ≤ |q| ∧ |q| < (2 : ℚ) ^ (qexp q + 1) := by
  have hb : 0 < q.den := q.pos
  have ha : 0 < q.num.natAbs := Int.natAbs_pos.mpr (Rat.num_ne_zero.mpr hq)
  rw [qexp]
  simp only [qabs_eq, qfloor_eq]
  split
  next h1 =>
    have hfl1 : (1 : ℤ) ≤ ⌊|q|⌋ := Int.le_floor.mpr (by exact_mod_cast h1)
    set m : ℕ := (⌊|q|⌋).toNat with hm
    have hm1 : 1 ≤ m := by omega
    obtain ⟨hL1, hL2⟩ := nlog2_spec m hm1
    have hq2 : ((m : ℚ)) ≤ |q| := by
      have : ((m : ℤ) : ℚ) ≤ |q| := by
        rw [hm, Int.toNat_of_nonneg (by omega)]
        exact Int.floor_le _
      exact_mod_cast this
    have hq3 : |q| < (m : ℚ) + 1 := by
      have : |q| < ((m : ℤ) : ℚ) + 1 := by
        rw [hm, Int.toNat_of_nonneg (by omega)]
        exact Int.lt_floor_add_one _
      exact_mod_cast this
    constructor
    · rw [zpow_natCast]
      calc (2 : ℚ) ^ nlog2 m = ((2 ^ nlog2 m : ℕ) : ℚ) := by push_cast; ring
      _ ≤ (m : ℚ) := by exact_mod_cast hL1
      _ ≤ |q| := hq2
    · calc |q| < (m : ℚ) + 1 := hq3
      _ ≤ ((2 : ℚ) ^ (nlog2 m + 1 : ℕ)) := by exact_mod_cast Nat.succ_le_of_lt hL2
      _ = (2 : ℚ) ^ ((nlog2 m : ℤ) + 1) := by
          rw [← zpow_natCast]
          push_cast
          ring_nf
  next h1 =>
    push_neg at h1
    have habs : |q| = (q.num.natAbs : ℚ) / q.den := abs_eq_natAbs_div_den q
    set a : ℕ := q.num.natAbs with hadef
    set b : ℕ := q.den with hbdef
    have hbq : (0 : ℚ) < (b : ℚ) := by exact_mod_cast hb
    have haq : (0 : ℚ) < (a : ℚ) := by exact_mod_cast ha
    have hab : a < b := by
      by_contra hcon
      push_neg at hcon
      have : (1 : ℚ) ≤ (a : ℚ) / b := by
        rw [le_div_iff₀ hbq, one_mul]
        exact_mod_cast hcon
      rw [habs] at h1
      linarith
    have hba1 : 1 ≤ b / a := (Nat.one_le_div_iff ha).mpr hab.le
    obtain ⟨hT1, hT2⟩ := nlog2_spec (b / a) hba1
    set t : ℕ := nlog2 (b / a) with htdef
    have hit1 : ((2 : ℚ) ^ t) * a ≤ b := by
      calc ((2 : ℚ) ^ t) * a ≤ ((b / a : ℕ) : ℚ) * a := by
            have h2 : ((2 ^ t : ℕ) : ℚ) ≤ ((b / a : ℕ) : ℚ) := by exact_mod_cast hT1
            push_cast at h2 ⊢
            nlinarith
      _ ≤ (b : ℚ) := by exact_mod_cast Nat.div_mul_le_self b a
    have hit2 : (b : ℚ) < ((2 : ℚ) ^ (t + 1)) * a := by
      calc (b : ℚ) < (((b / a : ℕ) : ℚ) + 1) * a := by
            exact_mod_cast nat_lt_div_succ_mul b a ha
      _ ≤ ((2 : ℚ) ^ (t + 1)) * a := by
            have h2 : ((b / a : ℕ) : ℚ) + 1 ≤ ((2 : ℚ) ^ (t + 1)) := by
              exact_mod_cast Nat.succ_le_of_lt hT2
            nlinarith
    have hq_le : |q| ≤ (2 : ℚ) ^ (-(t : ℤ)) := by
      rw [habs, zpow_neg, zpow_natCast, div_le_iff₀ hbq, inv_mul_eq_div,
        le_div_iff₀ (by positivity)]
      linarith
    have hq_gt : (2 : ℚ) ^ (-(t : ℤ) - 1) < |q| := by
      rw [habs, lt_div_iff₀ hbq]
      have hrw : (2 : ℚ) ^ (-(t : ℤ) - 1) = ((2 : ℚ) ^ (t + 1 : ℕ))⁻¹ := by
        rw [← zpow_natCast, ← zpow_neg]
        congr 1
        push_cast
        ring
      rw [hrw, inv_mul_eq_div, div_lt_iff₀ (by positivity)]
      linarith
    split
    next heq =>
      rw [qmul_eq, pow2_eq] at heq
      have habs2 : |q| = (2 : ℚ) ^ (-(t : ℤ)) := by
        rw [zpow_neg]
        exact eq_inv_of_mul_eq_one_left heq
      constructor
      · rw [habs2]
      · rw [habs2]
        apply zpow_lt_zpow_right₀ (by norm_num)
        omega
    next heq =>
      rw [qmul_eq, pow2_eq] at heq
      have hne : |q| ≠ (2 : ℚ) ^ (-(t : ℤ)) := by
        intro hcon
        apply heq
        rw [hcon]
        rw [← zpow_add₀ (by norm_num : (2 : ℚ) ≠ 0)]
        norm_num
      constructor
      · exact hq_gt.le
      · rw [show (-(t : ℤ) - 1 + 1 : ℤ) = -(t : ℤ) from by ring]
        exact lt_of_le_of_ne hq_le hne

theorem fround_zero : fround 0 = 0 := by
  rw [fround, if_pos rfl]

theorem fround_eq_of_ne (q : ℚ) (hq : q ≠ 0) :
    fround q =
      ((rne (q * (2 : ℚ) ^ (52 - qexp q)) : ℤ) : ℚ) * (2 : ℚ) ^ (qexp q - 52) := by
  rw [fround, if_neg hq, qmul_eq, qmul_eq, pow2_eq, pow2_eq]

theorem q_eq_scaled (q : ℚ) :
    (q * (2 : ℚ) ^ (52 - qexp q)) * (2 : ℚ) ^ (qexp q - 52) = q := by
  rw [mul_assoc, ← zpow_add₀ (by norm_num : (2 : ℚ) ≠ 0)]
  norm_num

theorem fround_err (q : ℚ) : |fround q - q| ≤ |q| * (2 : ℚ) ^ (-53 : ℤ) := by
  rcases eq_or_ne q 0 with rfl | hq
  · simp [fround_zero]
  · obtain ⟨he1, he2⟩ := qexp_spec q hq
    set e : ℤ := qexp q with hedef
    set x : ℚ := q * (2 : ℚ) ^ (52 - e) with hxdef
    have hpow : (0 : ℚ) < (2 : ℚ) ^ (e - 52) := by positivity
    have hsub : fround q - q = ((rne x : ℚ) - x) * (2 : ℚ) ^ (e - 52) := by
      rw [fround_eq_of_ne q hq, ← hedef, ← hxdef]
      have := q_eq_scaled q
      rw [← hedef, ← hxdef] at this
      rw [sub_mul]
      rw [this]
    rw [hsub, abs_mul, abs_of_pos hpow]
    calc |(rne x : ℚ) - x| * (2 : ℚ) ^ (e - 52)
        ≤ (1 / 2) * (2 : ℚ) ^ (e - 52) := by
          exact mul_le_mul_of_nonneg_right (rne_err x) hpow.le
      _ = (2 : ℚ) ^ e * (2 : ℚ) ^ (-53 : ℤ) := by
          rw [← zpow_add₀ (by norm_num : (2 : ℚ) ≠ 0)]
          rw [show (e + -53 : ℤ) = (e - 52) + (-1 : ℤ) from by ring]
          rw [zpow_add₀ (by norm_num : (2 : ℚ) ≠ 0)]
          norm_num
          ring
      _ ≤ |q| * (2 : ℚ) ^ (-53 : ℤ) := by
          apply mul_le_mul_of_nonneg_right he1
          positivity

theorem fround_nonneg (q : ℚ) (h : 0 ≤ q) : 0 ≤ fround q := by
  rcases eq_or_ne q 0 with rfl | hq
  · rw [fround_zero]
  · rw [fround_eq_of_ne q hq]
    have hx : (0 : ℚ) ≤ q * (2 : ℚ) ^ (52 - qexp q) := by positivity
    have hfl : (0 : ℤ) ≤ ⌊q * (2 : ℚ) ^ (52 - qexp q)⌋ := Int.floor_nonneg.mpr hx
    have := floor_le_rne (q * (2 : ℚ) ^ (52 - qexp q))
    have hr : (0 : ℤ) ≤ rne (q * (2 : ℚ) ^ (52 - qexp q)) := le_trans hfl this
    positivity

theorem qexp_neg (q : ℚ) : qexp (-q) = qexp q := by
  rw [qexp, qexp]
  simp only [qabs_eq, abs_neg, Rat.neg_den, Rat.neg_num, Int.natAbs_neg]

theorem fround_neg (q : ℚ) : fround (-q) = -fround q := by
  rcases eq_or_ne q 0 with rfl | hq
  · simp [fround_zero]
  · rw [fround_eq_of_ne (-q) (neg_ne_zero.mpr hq), fround_eq_of_ne q hq, qexp_neg]
    rw [neg_mul, rne_neg]
    push_cast
    ring

theorem x_lt_two53 (q : ℚ) (hq : 0 < q) :
    q * (2 : ℚ) ^ (52 - qexp q) < (2 : ℚ) ^ (53 : ℤ) := by
  obtain ⟨_, he2⟩ := qexp_spec q hq.ne'
  rw [abs_of_pos hq] at he2
  calc q * (2 : ℚ) ^ (52 - qexp q)
      < (2 : ℚ) ^ (qexp q + 1) * (2 : ℚ) ^ (52 - qexp q) := by
        apply mul_lt_mul_of_pos_right he2
        positivity
    _ = (2 : ℚ) ^ (53 : ℤ) := by
        rw [← zpow_add₀ (by norm_num : (2 : ℚ) ≠ 0)]
        ring_nf

theorem two52_le_x (q : ℚ) (hq : 0 < q) :
    (2 : ℚ) ^ (52 : ℤ) ≤ q * (2 : ℚ) ^ (52 - qexp q) := by
  obtain ⟨he1, _⟩ := qexp_spec q hq.ne'
  rw [abs_of_pos hq] at he1
  calc (2 : ℚ) ^ (52 : ℤ)
      = (2 : ℚ) ^ (qexp q) * (2 : ℚ) ^ (52 - qexp q) := by
        rw [← zpow_add₀ (by norm_num : (2 : ℚ) ≠ 0)]
        ring_nf
    _ ≤ q * (2 : ℚ) ^ (52 - qexp q) := by
        apply mul_le_mul_of_nonneg_right he1
        positivity

theorem fround_le_pow_succ (q : ℚ) (hq : 0 < q) :
    fround q ≤ (2 : ℚ) ^ (qexp q + 1) := by
  rw [fround_eq_of_ne q hq.ne']
  set x : ℚ := q * (2 : ℚ) ^ (52 - qexp q) with hxdef
  have hx53 : x < (2 : ℚ) ^ (53 : ℤ) := x_lt_two53 q hq
  have hfl : ⌊x⌋ < (2 ^ 53 : ℤ) := by
    rw [Int.floor_lt]
    exact_mod_cast hx53
  have hrne : rne x ≤ (2 ^ 53 : ℤ) := le_trans (rne_le_floor_add_one x) (by omega)
  calc ((rne x : ℤ) : ℚ) * (2 : ℚ) ^ (qexp q - 52)
      ≤ ((2 ^ 53 : ℤ) : ℚ) * (2 : ℚ) ^ (qexp q - 52) := by
        apply mul_le_mul_of_nonneg_right _ (by positivity)
        exact_mod_cast hrne
    _ = (2 : ℚ) ^ (qexp q + 1) := by
        have hc : ((2 ^ 53 : ℤ) : ℚ) = (2 : ℚ) ^ (53 : ℤ) := by norm_cast
        rw [hc, ← zpow_add₀ (by norm_num : (2 : ℚ) ≠ 0)]
        congr 1
        ring

theorem pow_le_fround (q : ℚ) (hq : 0 < q) :
    (2 : ℚ) ^ (qexp q) ≤ fround q := by
  rw [fround_eq_of_ne q hq.ne']
  set x : ℚ := q * (2 : ℚ) ^ (52 - qexp q) with hxdef
  have hx52 : (2 : ℚ) ^ (52 : ℤ) ≤ x := two52_le_x q hq
  have hfl : (2 ^ 52 : ℤ) ≤ ⌊x⌋ := by
    rw [Int.le_floor]
    exact_mod_cast hx52
  have hrne : (2 ^ 52 : ℤ) ≤ rne x := le_trans hfl (floor_le_rne x)
  calc (2 : ℚ) ^ (qexp q)
      = ((2 ^ 52 : ℤ) : ℚ) * (2 : ℚ) ^ (qexp q - 52) := by
        have hc : ((2 ^ 52 : ℤ) : ℚ) = (2 : ℚ) ^ (52 : ℤ) := by norm_cast
        rw [hc, ← zpow_add₀ (by norm_num : (2 : ℚ) ≠ 0)]
        congr 1
        ring
    _ ≤ ((rne x : ℤ) : ℚ) * (2 : ℚ) ^ (qexp q - 52) := by
        apply mul_le_mul_of_nonneg_right _ (by positivity)
        exact_mod_cast hrne

theorem qexp_mono_pos {q r : ℚ} (hq : 0 < q) (h : q ≤ r) : qexp q ≤ qexp r := by
  have hr : 0 < r := lt_of_lt_of_le hq h
  obtain ⟨hq1, _⟩ := qexp_spec q hq.ne'
  obtain ⟨_, hr2⟩ := qexp_spec r hr.ne'
  rw [abs_of_pos hq] at hq1
  rw [abs_of_pos hr] at hr2
  have hlt : (2 : ℚ) ^ (qexp q) < (2 : ℚ) ^ (qexp r + 1) := by
    calc (2 : ℚ) ^ (qexp q) ≤ q := hq1
      _ ≤ r := h
      _ < (2 : ℚ) ^ (qexp r + 1) := hr2
  have := (zpow_lt_zpow_iff_right₀ (by norm_num : (1 : ℚ) < 2)).mp hlt
  omega

theorem fround_mono_pos {q r : ℚ} (hq : 0 < q) (h : q ≤ r) : fround q ≤ fround r := by
  have hr : 0 < r := lt_of_lt_of_le hq h
  rcases eq_or_lt_of_le (qexp_mono_pos hq h) with he | he
  · rw [fround_eq_of_ne q hq.ne', fround_eq_of_ne r hr.ne', ← he]
    apply mul_le_mul_of_nonneg_right _ (by positivity)
    have hxm : q * (2 : ℚ) ^ (52 - qexp q) ≤ r * (2 : ℚ) ^ (52 - qexp q) :=
      mul_le_mul_of_nonneg_right h (by positivity)
    exact_mod_cast rne_mono hxm
  · calc fround q ≤ (2 : ℚ) ^ (qexp q + 1) := fround_le_pow_succ q hq
      _ ≤ (2 : ℚ) ^ (qexp r) := by
          apply zpow_le_zpow_right₀ (by norm_num) (by omega)
      _ ≤ fround r := pow_le_fround r hr

theorem fround_mono {q r : ℚ} (h : q ≤ r) : fround q ≤ fround r := by
  rcases lt_trichotomy 0 q with hq | hq | hq
  · exact fround_mono_pos hq h
  · rw [← hq, fround_zero]
    exact fround_nonneg r (by linarith)
  · have hfq : fround q = -fround (-q) := by rw [← fround_neg, neg_neg]
    rcases le_or_lt 0 r with hr | hr
    · rw [hfq]
      have h1 : 0 ≤ fround (-q) := fround_nonneg _ (by linarith)
      have h2 : 0 ≤ fround r := fround_nonneg r hr
      linarith
    · have hfr : fround r = -fround (-r) := by rw [← fround_neg, neg_neg]
      rw [hfq, hfr, neg_le_neg_iff]
      exact fround_mono_pos (by linarith) (by linarith)

/-- A rational representable as a binary64 value (53-bit significand,
arbitrary exponent; the overflow/subnormal cutoffs are irrelevant at the
magnitudes the embedded code reaches). -/
def FP (q : ℚ) : Prop := ∃ n k : ℤ, |n| ≤ 2 ^ 53 ∧ q = (n : ℚ) * (2 : ℚ) ^ k

theorem fround_dyadic_fix_nonneg (n k : ℤ) (hn : 0 ≤ n) (h : n ≤ 2 ^ 53) :
    fround ((n : ℚ) * (2 : ℚ) ^ k) = (n : ℚ) * (2 : ℚ) ^ k := by
  rcases eq_or_lt_of_le hn with rfl | hnpos
  · simp [fround_zero]
  · have hq : (0 : ℚ) < ((n : ℚ) * (2 : ℚ) ^ k) := by
      apply mul_pos _ (by positivity)
      exact_mod_cast hnpos
    set q : ℚ := (n : ℚ) * (2 : ℚ) ^ k with hqdef
    have habs : |q| = (n : ℚ) * (2 : ℚ) ^ k := abs_of_pos hq
    obtain ⟨he1, he2⟩ := qexp_spec q hq.ne'
    set e : ℤ := qexp q with hedef
    have heub : e ≤ k + 53 := by
      have hle : (2 : ℚ) ^ e ≤ (2 : ℚ) ^ (k + 53) := by
        calc (2 : ℚ) ^ e ≤ |q| := he1
          _ = (n : ℚ) * (2 : ℚ) ^ k := habs
          _ ≤ ((2 ^ 53 : ℤ) : ℚ) * (2 : ℚ) ^ k := by
              apply mul_le_mul_of_nonneg_right _ (by positivity)
              exact_mod_cast h
          _ = (2 : ℚ) ^ (k + 53) := by
              have hc : ((2 ^ 53 : ℤ) : ℚ) = (2 : ℚ) ^ (53 : ℤ) := by norm_cast
              rw [hc, ← zpow_add₀ (by norm_num : (2 : ℚ) ≠ 0)]
              congr 1
              ring
      have := (zpow_le_zpow_iff_right₀ (by norm_num : (1 : ℚ) < 2)).mp hle
      omega
    by_cases hcase : e ≤ k + 52
    · have hm : (0 : ℤ) ≤ k + 52 - e := by omega
      have hx : q * (2 : ℚ) ^ (52 - e) = ((n * 2 ^ (k + 52 - e).toNat : ℤ) : ℚ) := by
        rw [hqdef]
        push_cast
        rw [mul_assoc, ← zpow_natCast (2 : ℚ) ((k + 52 - e).toNat),
          Int.toNat_of_nonneg hm, ← zpow_add₀ (by norm_num : (2 : ℚ) ≠ 0)]
        congr 1
        ring
      rw [fround_eq_of_ne q hq.ne', ← hedef, hx, rne_intCast]
      push_cast
      rw [← zpow_natCast (2 : ℚ) ((k + 52 - e).toNat), Int.toNat_of_nonneg hm,
        mul_assoc, ← zpow_add₀ (by norm_num : (2 : ℚ) ≠ 0)]
      rw [hqdef]
      congr 2
      ring
    · have hek : e = k + 53 := by omega
      have hge : (2 : ℚ) ^ (k + 53) ≤ (n : ℚ) * (2 : ℚ) ^ k := by
        rw [← hek, ← habs]
        exact he1
      have hn53 : n = 2 ^ 53 := by
        have h53 : (2 : ℚ) ^ (53 : ℤ) ≤ (n : ℚ) := by
          have hp : (0 : ℚ) < (2 : ℚ) ^ (-k : ℤ) := by positivity
          have h2 := mul_le_mul_of_nonneg_right hge hp.le
          rw [← zpow_add₀ (by norm_num : (2 : ℚ) ≠ 0), mul_assoc,
            ← zpow_add₀ (by norm_num : (2 : ℚ) ≠ 0)] at h2
          rw [show (k + 53 + -k : ℤ) = 53 from by ring,
            show (k + -k : ℤ) = 0 from by ring, zpow_zero, mul_one] at h2
          exact h2
        have hle2 : (2 ^ 53 : ℤ) ≤ n := by
          have hc : ((2 ^ 53 : ℤ) : ℚ) = (2 : ℚ) ^ (53 : ℤ) := by norm_cast
          rw [← hc] at h53
          exact_mod_cast h53
        omega
      subst hn53
      have hx : q * (2 : ℚ) ^ (52 - e) = ((2 ^ 52 : ℤ) : ℚ) := by
        have hc52 : ((2 ^ 52 : ℤ) : ℚ) = (2 : ℚ) ^ (52 : ℤ) := by norm_cast
        have hc53 : (((2 ^ 53 : ℤ) : ℤ) : ℚ) = (2 : ℚ) ^ (53 : ℤ) := by norm_cast
        rw [hqdef, hc52, hc53, hek]
        rw [← zpow_add₀ (by norm_num : (2 : ℚ) ≠ 0),
          ← zpow_add₀ (by norm_num : (2 : ℚ) ≠ 0)]
        congr 1
        ring
      rw [fround_eq_of_ne q hq.ne', ← hedef, hx, rne_intCast]
      have hc52 : ((2 ^ 52 : ℤ) : ℚ) = (2 : ℚ) ^ (52 : ℤ) := by norm_cast
      have hc53 : (((2 ^ 53 : ℤ) : ℤ) : ℚ) = (2 : ℚ) ^ (53 : ℤ) := by norm_cast
      rw [hqdef, hc52, hc53, hek]
      rw [← zpow_add₀ (by norm_num : (2 : ℚ) ≠ 0),
        ← zpow_add₀ (by norm_num : (2 : ℚ) ≠ 0)]
      congr 1
      ring

theorem fround_dyadic_fix (n k : ℤ) (h : |n| ≤ 2 ^ 53) :
    fround ((n : ℚ) * (2 : ℚ) ^ k) = (n : ℚ) * (2 : ℚ) ^ k := by
  rcases le_or_lt 0 n with hn | hn
  · exact fround_dyadic_fix_nonneg n k hn (by rwa [abs_of_nonneg hn] at h)
  · have h2 := fround_dyadic_fix_nonneg (-n) k (by omega)
      (by rw [abs_of_neg hn] at h; omega)
    have hneg : ((n : ℚ) * (2 : ℚ) ^ k) = -(((-n : ℤ) : ℚ) * (2 : ℚ) ^ k) := by
      push_cast
      ring
    rw [hneg, fround_neg, h2]

theorem fround_fix {q : ℚ} (h : FP q) : fround q = q := by
  obtain ⟨n, k, hn, rfl⟩ := h
  exact fround_dyadic_fix n k hn

theorem FP_fround (q : ℚ) : FP (fround q) := by
  rcases eq_or_ne q 0 with rfl | hq
  · exact ⟨0, 0, by norm_num, by rw [fround_zero]; push_cast; ring⟩
  · obtain ⟨he1, he2⟩ := qexp_spec q hq
    refine ⟨rne (q * (2 : ℚ) ^ (52 - qexp q)), qexp q - 52, ?_, fround_eq_of_ne q hq⟩
    set x : ℚ := q * (2 : ℚ) ^ (52 - qexp q) with hxdef
    have hxabs : |x| < (2 : ℚ) ^ (53 : ℤ) := by
      rw [hxdef, abs_mul, abs_of_pos (a := (2 : ℚ) ^ (52 - qexp q)) (by positivity)]
      calc |q| * (2 : ℚ) ^ (52 - qexp q)
          < (2 : ℚ) ^ (qexp q + 1) * (2 : ℚ) ^ (52 - qexp q) := by
            exact mul_lt_mul_of_pos_right he2 (by positivity)
        _ = (2 : ℚ) ^ (53 : ℤ) := by
            rw [← zpow_add₀ (by norm_num : (2 : ℚ) ≠ 0)]
            congr 1
            ring
    have hub : x < (2 : ℚ) ^ (53 : ℤ) := lt_of_le_of_lt (le_abs_self x) hxabs
    have hlb : -((2 : ℚ) ^ (53 : ℤ)) < x := by
      have := neg_abs_le x
      linarith
    have hfl1 : ⌊x⌋ < (2 ^ 53 : ℤ) := by
      rw [Int.floor_lt]
      exact_mod_cast hub
    have hfl2 : (-(2 ^ 53) : ℤ) ≤ ⌊x⌋ := by
      rw [Int.le_floor]
      have hc : ((-(2 ^ 53) : ℤ) : ℚ) = -((2 : ℚ) ^ (53 : ℤ)) := by norm_cast
      rw [hc]
      exact hlb.le
    have h1 := floor_le_rne x
    have h2 := rne_le_floor_add_one x
    rw [abs_le]
    omega

theorem fround_idem (q : ℚ) : fround (fround q) = fround q :=
  fround_fix (FP_fround q)

theorem FP_zero : FP 0 := ⟨0, 0, by norm_num, by push_cast; ring⟩

theorem FP_neg {q : ℚ} (h : FP q) : FP (-q) := by
  obtain ⟨n, k, hn, rfl⟩ := h
  exact ⟨-n, k, by rwa [abs_neg], by push_cast; ring⟩

theorem FP_two_mul {q : ℚ} (h : FP q) : FP (2 * q) := by
  obtain ⟨n, k, hn, rfl⟩ := h
  refine ⟨n, k + 1, hn, ?_⟩
  rw [zpow_add₀ (by norm_num : (2 : ℚ) ≠ 0)]
  ring

theorem FP_half {q : ℚ} (h : FP q) : FP (q / 2) := by
  obtain ⟨n, k, hn, rfl⟩ := h
  refine ⟨n, k - 1, hn, ?_⟩
  rw [zpow_sub₀ (by norm_num : (2 : ℚ) ≠ 0)]
  ring

theorem FP_intCast (n : ℤ) (h : |n| ≤ 2 ^ 53) : FP (n : ℚ) :=
  ⟨n, 0, h, by rw [zpow_zero, mul_one]⟩

theorem FP_natCast (n : ℕ) (h : n ≤ 2 ^ 53) : FP (n : ℚ) := by
  have := FP_intCast (n : ℤ) (by rw [Int.abs_eq_natAbs]; exact_mod_cast h)
  push_cast at this
  exact this

theorem fround_intCast (n : ℤ) (h : |n| ≤ 2 ^ 53) : fround (n : ℚ) = n :=
  fround_fix (FP_intCast n h)

theorem fround_natCast (n : ℕ) (h : n ≤ 2 ^ 53) : fround (n : ℚ) = n :=
  fround_fix (FP_natCast n h)

theorem fround_one : fround 1 = 1 := by
  have := fround_natCast 1 (by norm_num)
  push_cast at this
  exact this

theorem fadd_eq (x y : ℚ) : fadd x y = fround (x + y) := by rw [fadd, qadd_eq]

theorem fsub_eq (x y : ℚ) : fsub x y = fround (x - y) := by rw [fsub, qsub_eq]

theorem fmul_eq (x y : ℚ) : fmul x y = fround (x * y) := by rw [fmul, qmul_eq]

theorem fdiv_eq (x y : ℚ) : fdiv x y = fround (x / y) := by rw [fdiv, qdiv_eq]

theorem fmod_eq (x y : ℚ) : fmod x y = x - ((qtrunc (x / y) : ℤ) : ℚ) * y := by
  rw [fmod, qsub_eq, qmul_eq, qdiv_eq]

theorem fabs_eq (x : ℚ) : qabs x = |x| := qabs_eq x

theorem FP_fadd (x y : ℚ) : FP (fadd x y) := by rw [fadd]; exact FP_fround _

theorem FP_fsub (x y : ℚ) : FP (fsub x y) := by rw [fsub]; exact FP_fround _

theorem FP_fmul (x y : ℚ) : FP (fmul x y) := by rw [fmul]; exact FP_fround _

theorem FP_fdiv (x y : ℚ) : FP (fdiv x y) := by rw [fdiv]; exact FP_fround _

theorem qtrunc_nonneg_eq (x : ℚ) (h : 0 ≤ x) : qtrunc x = ⌊x⌋ := by
  rw [qtrunc, if_pos h, qfloor_eq]

theorem qtrunc_neg_eq (x : ℚ) (h : ¬0 ≤ x) : qtrunc x = -⌊-x⌋ := by
  rw [qtrunc, if_neg h, qfloor_eq, rat_neg_eq]

theorem qtrunc_intCast (n : ℤ) : qtrunc ((n : ℤ) : ℚ) = n := by
  rcases le_or_lt 0 (n : ℚ) with h | h
  · rw [qtrunc_nonneg_eq _ h, Int.floor_intCast]
  · rw [qtrunc_neg_eq _ (not_le.mpr h), ← Int.cast_neg, Int.floor_intCast, neg_neg]

theorem qtrunc_le_of_le {x : ℚ} {n : ℤ} (hn : 0 ≤ n) (h : x ≤ (n : ℚ)) :
    qtrunc x ≤ n := by
  rcases le_or_lt 0 x with hx | hx
  · rw [qtrunc_nonneg_eq _ hx]
    exact le_trans (Int.floor_le_floor h) (le_of_eq (Int.floor_intCast n))
  · rw [qtrunc_neg_eq _ (not_le.mpr hx)]
    have : (0 : ℤ) ≤ ⌊-x⌋ := Int.floor_nonneg.mpr (by linarith)
    omega

theorem qtrunc_nonneg {x : ℚ} (h : 0 ≤ x) : 0 ≤ qtrunc x := by
  rw [qtrunc_nonneg_eq _ h]
  exact Int.floor_nonneg.mpr h

theorem asU8_le_255 (x : ℚ) : asU8 x ≤ 255 := by
  rw [asU8]
  omega

theorem asU8_le_of_le {x : ℚ} {n : ℕ} (hn : n ≤ 255) (h : x ≤ (n : ℚ)) :
    asU8 x ≤ n := by
  rw [asU8]
  have ht : qtrunc x ≤ (n : ℤ) := qtrunc_le_of_le (by positivity) (by exact_mod_cast h)
  omega

theorem asU16_le_of_le {x : ℚ} {n : ℕ} (hn : n ≤ 65535) (h : x ≤ (n : ℚ)) :
    asU16 x ≤ n := by
  rw [asU16]
  have ht : qtrunc x ≤ (n : ℤ) := qtrunc_le_of_le (by positivity) (by exact_mod_cast h)
  omega

theorem rhalfAway_nonneg_eq (x : ℚ) (h : 0 ≤ x) : rhalfAway x = ⌊x + 1 / 2⌋ := by
  rw [rhalfAway, if_pos h, qadd_eq, qhalf_eq, qfloor_eq]

theorem rhalfAway_neg_eq (x : ℚ) (h : ¬0 ≤ x) : rhalfAway x = -⌊-x + 1 / 2⌋ := by
  rw [rhalfAway, if_neg h, qadd_eq, qhalf_eq, qfloor_eq, rat_neg_eq]

theorem rhalfAway_le {x : ℚ} {n : ℤ} (hn : 0 ≤ n) (h : x < (n : ℚ) + 1 / 2) :
    rhalfAway x ≤ n := by
  rcases le_or_lt 0 x with hx | hx
  · rw [rhalfAway_nonneg_eq _ hx]
    have : x + 1 / 2 < (n : ℚ) + 1 := by linarith
    have hfl : ⌊x + 1 / 2⌋ < n + 1 := by
      rw [Int.floor_lt]
      push_cast
      linarith
    omega
  · rw [rhalfAway_neg_eq _ (not_le.mpr hx)]
    have : (0 : ℤ) ≤ ⌊-x + 1 / 2⌋ := Int.floor_nonneg.mpr (by linarith)
    omega

theorem rhalfAway_eq_of {x : ℚ} {l : ℤ} (h : |x - l| < 1 / 2) : rhalfAway x = l := by
  have h1 : (l : ℚ) - 1 / 2 < x := by
    have := abs_lt.mp h
    linarith [this.1]
  have h2 : x < (l : ℚ) + 1 / 2 := by
    have := abs_lt.mp h
    linarith [this.2]
  rcases le_or_lt 0 x with hx | hx
  · rw [rhalfAway_nonneg_eq _ hx]
    rw [Int.floor_eq_iff]
    constructor
    · linarith
    · linarith
  · rw [rhalfAway_neg_eq _ (not_le.mpr hx)]
    have : ⌊-x + 1 / 2⌋ = -l := by
      rw [Int.floor_eq_iff]
      constructor
      · push_cast
        linarith
      · push_cast
        linarith
    omega

/-- The key channel of `Rgb::_to_cmyk` as a function of the integer
channel maximum: `(key * 100.) as u8` with `key = 1. - max/255.`. -/
def keyOf (M : ℕ) : ℕ := asU8 (fmul (fsub 1 (fdiv (M : ℚ) 255)) 100)

theorem fdiv255_mono {a b : ℕ} (h : a ≤ b) :
    fdiv (a : ℚ) 255 ≤ fdiv (b : ℚ) 255 := by
  rw [fdiv_eq, fdiv_eq]
  apply fround_mono
  have hc : (a : ℚ) ≤ b := by exact_mod_cast h
  linarith

theorem fdiv255_max (a b : ℕ) :
    qmax (fdiv (a : ℚ) 255) (fdiv (b : ℚ) 255) = fdiv ((max a b : ℕ) : ℚ) 255 := by
  rw [qmax_eq]
  rcases le_total a b with h | h
  · rw [max_eq_right h, max_eq_right (fdiv255_mono h)]
  · rw [max_eq_left h, max_eq_left (fdiv255_mono h)]

theorem toCmyk_key_eq (s : Rgb) :
    s.toCmyk.key = keyOf (max (max s.red s.green) s.blue) := by
  show s._to_cmyk.2.2.2 = _
  rw [Rgb._to_cmyk, keyOf]
  simp only [fdiv255_max]

theorem keyOf_table :
    ∀ M : Fin 256,
      keyOf M.val =
        if M.val = 204 then 19 else (100 * (255 - M.val)) / 255 := by
  decide

/-- Claim C3 (amended): the key channel of `Rgb::to_cmyk` is the
truncation (not the rounding) of `k × 100`: for `u8` channels it equals
`⌊100 × (255 − max) / 255⌋`, except at `max = 204`, where the floating
computation of `(1 − 204/255) × 100` lands just below `20` and truncates
to `19`. -/
theorem C3_amended :
    ∀ s : Rgb, s.red ≤ 255 → s.green ≤ 255 → s.blue ≤ 255 →
      s.toCmyk.key =
        if max (max s.red s.green) s.blue = 204 then 19
        else (100 * (255 - max (max s.red s.green) s.blue)) / 255 := by
  intro s hr hg hb
  rw [toCmyk_key_eq]
  have hM : max (max s.red s.green) s.blue < 256 := by omega
  exact keyOf_table ⟨max (max s.red s.green) s.blue, hM⟩

/-- Witness for C3 (amended) at `rgb(128, 128, 128)` and `rgb(204, 0, 0)`. -/
theorem C3_amended_witness :
    (128 ≤ 255 ∧ (Rgb.new 128 128 128).toCmyk.key = 49) ∧
    (204 ≤ 255 ∧ (Rgb.new 204 0 0).toCmyk.key = 19) :=
  ⟨⟨by decide, by
      have := C3_amended (Rgb.new 128 128 128) (by decide) (by decide) (by decide)
      simpa using this⟩,
   ⟨by decide, by
      have := C3_amended (Rgb.new 204 0 0) (by decide) (by decide) (by decide)
      simpa using this⟩⟩

theorem rhalfAway_err (x : ℚ) : |(rhalfAway x : ℚ) - x| ≤ 1 / 2 := by
  rcases le_or_lt 0 x with hx | hx
  · rw [rhalfAway_nonneg_eq _ hx]
    have h1 : (⌊x + 1 / 2⌋ : ℚ) ≤ x + 1 / 2 := Int.floor_le _
    have h2 : x + 1 / 2 < ⌊x + 1 / 2⌋ + 1 := Int.lt_floor_add_one _
    rw [abs_le]
    constructor <;> linarith
  · rw [rhalfAway_neg_eq _ (not_le.mpr hx)]
    have h1 : (⌊-x + 1 / 2⌋ : ℚ) ≤ -x + 1 / 2 := Int.floor_le _
    have h2 : -x + 1 / 2 < ⌊-x + 1 / 2⌋ + 1 := Int.lt_floor_add_one _
    rw [abs_le]
    push_cast
    constructor <;> linarith

theorem rhalfAway_nonneg {x : ℚ} (h : 0 ≤ x) : 0 ≤ rhalfAway x := by
  rw [rhalfAway_nonneg_eq _ h]
  exact Int.floor_nonneg.mpr (by linarith)

theorem asU8_f64round (x : ℚ) :
    asU8 (f64round x) = (min (max (rhalfAway x) 0) 255).toNat := by
  rw [f64round, asU8, qtrunc_intCast]

theorem asU16_f64round (x : ℚ) :
    asU16 (f64round x) = (min (max (rhalfAway x) 0) 65535).toNat := by
  rw [f64round, asU16, qtrunc_intCast]

theorem eps53_eq : (2 : ℚ) ^ (-53 : ℤ) = 1 / 9007199254740992 := by
  rw [zpow_neg]
  norm_num

theorem fround_err_le {x c : ℚ} (h : |x| ≤ c) :
    |fround x - x| ≤ c * (2 : ℚ) ^ (-53 : ℤ) :=
  le_trans (fround_err x) (mul_le_mul_of_nonneg_right h (by positivity))

theorem int_abs_div_ge {M : ℤ} (h : M ≠ 0) :
    1 / 10000 ≤ |(M : ℚ) / 10000| := by
  rw [abs_div, abs_of_pos (by norm_num : (0 : ℚ) < 10000)]
  have : (1 : ℚ) ≤ |(M : ℚ)| := by
    have h1 : (1 : ℤ) ≤ |M| := Int.one_le_abs h
    exact_mod_cast h1
  linarith

theorem abs_mul_sub (x x' y y' : ℚ) :
    |x * y - x' * y'| ≤ |x| * |y - y'| + |y'| * |x - x'| := by
  have h : x * y - x' * y' = x * (y - y') + y' * (x - x') := by ring
  rw [h]
  calc |x * (y - y') + y' * (x - x')|
      ≤ |x * (y - y')| + |y' * (x - x')| := abs_add _ _
    _ = |x| * |y - y'| + |y'| * |x - x'| := by rw [abs_mul, abs_mul]

theorem abs_shift (x y : ℚ) : |x| ≤ |x - y| + |y| := by
  calc |x| = |(x - y) + y| := by ring_nf
    _ ≤ |x - y| + |y| := abs_add _ _

set_option maxHeartbeats 1000000 in
/-- Abstract error propagation through the five roundings of the
`Cmyk::to_rgb` channel formula. -/
theorem cmyk_chain_bound (u va ka a s1 m1 a2 s2 F : ℚ)
    (hu0 : 0 ≤ u) (hue : u ≤ 1 / 9007199254740992)
    (hva0 : 0 ≤ va) (hva1 : va ≤ 1) (hka0 : 0 ≤ ka) (hka1 : ka ≤ 1)
    (ha : |a - va| ≤ |va| * u)
    (hs1 : |s1 - (1 - a)| ≤ |1 - a| * u)
    (hm1 : |m1 - 255 * s1| ≤ |255 * s1| * u)
    (ha2 : |a2 - ka| ≤ |ka| * u)
    (hs2 : |s2 - (1 - a2)| ≤ |1 - a2| * u)
    (hF : |F - m1 * s2| ≤ |m1 * s2| * u) :
    |F - 255 * (1 - va) * (1 - ka)| ≤ 1 / 100000 := by
  have hvaa : |va| ≤ 1 := by rw [abs_of_nonneg hva0]; exact hva1
  have hkaa : |ka| ≤ 1 := by rw [abs_of_nonneg hka0]; exact hka1
  have h1va : |1 - va| ≤ 1 := by rw [abs_of_nonneg (by linarith)]; linarith
  have h1ka : |1 - ka| ≤ 1 := by rw [abs_of_nonneg (by linarith)]; linarith
  have ha' : |a - va| ≤ u := le_trans ha (by nlinarith [abs_nonneg va])
  have ha2' : |a2 - ka| ≤ u := le_trans ha2 (by nlinarith [abs_nonneg ka])
  have ha_abs : |a| ≤ 2 := by
    have := abs_shift a va
    linarith
  have ha2_abs : |a2| ≤ 2 := by
    have := abs_shift a2 ka
    linarith
  have h1a : |1 - a| ≤ 3 := by
    have h := abs_sub (1 : ℚ) a
    rw [abs_one] at h
    linarith
  have h1a2 : |1 - a2| ≤ 3 := by
    have h := abs_sub (1 : ℚ) a2
    rw [abs_one] at h
    linarith
  have hs1' : |s1 - (1 - a)| ≤ 3 * u := le_trans hs1 (by nlinarith [abs_nonneg (1 - a)])
  have hs2' : |s2 - (1 - a2)| ≤ 3 * u := le_trans hs2 (by nlinarith [abs_nonneg (1 - a2)])
  have hs1_err : |s1 - (1 - va)| ≤ 4 * u := by
    have ht := abs_sub_le s1 (1 - a) (1 - va)
    have he : |1 - a - (1 - va)| = |a - va| := by
      rw [abs_sub_comm]
      congr 1
      ring
    rw [he] at ht
    linarith
  have hs2_err : |s2 - (1 - ka)| ≤ 4 * u := by
    have ht := abs_sub_le s2 (1 - a2) (1 - ka)
    have he : |1 - a2 - (1 - ka)| = |a2 - ka| := by
      rw [abs_sub_comm]
      congr 1
      ring
    rw [he] at ht
    linarith
  have hs1_abs : |s1| ≤ 2 := by
    have := abs_shift s1 (1 - va)
    linarith
  have hs2_abs : |s2| ≤ 2 := by
    have := abs_shift s2 (1 - ka)
    linarith
  have h255s1 : |255 * s1| ≤ 510 := by
    rw [abs_mul, show |(255 : ℚ)| = 255 from by norm_num]
    linarith
  have hm1' : |m1 - 255 * s1| ≤ 510 * u := le_trans hm1 (by nlinarith)
  have hm1_err : |m1 - 255 * (1 - va)| ≤ 1530 * u := by
    have ht := abs_sub_le m1 (255 * s1) (255 * (1 - va))
    have he : |255 * s1 - 255 * (1 - va)| = 255 * |s1 - (1 - va)| := by
      rw [show (255 : ℚ) * s1 - 255 * (1 - va) = 255 * (s1 - (1 - va)) from by ring,
        abs_mul, show |(255 : ℚ)| = 255 from by norm_num]
    rw [he] at ht
    linarith
  have hm1_abs : |m1| ≤ 256 := by
    have hsh := abs_shift m1 (255 * (1 - va))
    have h1 : |255 * (1 - va)| ≤ 255 := by
      rw [abs_mul, show |(255 : ℚ)| = 255 from by norm_num]
      linarith
    linarith
  have hm1s2 : |m1 * s2| ≤ 512 := by
    rw [abs_mul]
    calc |m1| * |s2| ≤ 256 * 2 :=
        mul_le_mul hm1_abs hs2_abs (abs_nonneg _) (by norm_num)
      _ = 512 := by norm_num
  have hF' : |F - m1 * s2| ≤ 512 * u := le_trans hF (by nlinarith)
  have hmid : |m1 * s2 - 255 * (1 - va) * (1 - ka)| ≤ 2554 * u := by
    have hms := abs_mul_sub m1 (255 * (1 - va)) s2 (1 - ka)
    have hrw : (255 * (1 - va)) * (1 - ka) = 255 * (1 - va) * (1 - ka) := by ring
    rw [hrw] at hms
    have h1 : |m1| * |s2 - (1 - ka)| ≤ 256 * (4 * u) :=
      mul_le_mul hm1_abs hs2_err (abs_nonneg _) (by norm_num)
    have h2 : |1 - ka| * |m1 - 255 * (1 - va)| ≤ 1 * (1530 * u) :=
      mul_le_mul h1ka hm1_err (abs_nonneg _) (by norm_num)
    linarith
  have hfin := abs_sub_le F (m1 * s2) (255 * (1 - va) * (1 - ka))
  linarith

/-- The floating channel computation of `Cmyk::to_rgb` stays within
`1 / 100000` of the exact real-number value. -/
theorem cmyk_channel_close (v k : ℕ) (hv : v ≤ 100) (hk : k ≤ 100) :
    |fmul (fmul 255 (fsub 1 (fdiv (v : ℚ) 100))) (fsub 1 (fdiv (k : ℚ) 100)) -
        255 * (1 - (v : ℚ) / 100) * (1 - (k : ℚ) / 100)| ≤ 1 / 100000 := by
  have hv1 : (v : ℚ) ≤ 100 := by exact_mod_cast hv
  have hk1 : (k : ℚ) ≤ 100 := by exact_mod_cast hk
  apply cmyk_chain_bound ((2 : ℚ) ^ (-53 : ℤ)) ((v : ℚ) / 100) ((k : ℚ) / 100)
    (fdiv (v : ℚ) 100) (fsub 1 (fdiv (v : ℚ) 100))
    (fmul 255 (fsub 1 (fdiv (v : ℚ) 100)))
    (fdiv (k : ℚ) 100) (fsub 1 (fdiv (k : ℚ) 100))
  · positivity
  · exact le_of_eq eps53_eq
  · positivity
  · linarith
  · positivity
  · linarith
  · rw [fdiv_eq]
    exact fround_err _
  · rw [fsub_eq, fdiv_eq]
    exact fround_err _
  · rw [fmul_eq, fsub_eq, fdiv_eq]
    exact fround_err _
  · rw [fdiv_eq]
    exact fround_err _
  · rw [fsub_eq, fdiv_eq]
    exact fround_err _
  · rw [fmul_eq, fmul_eq, fsub_eq, fsub_eq, fdiv_eq, fdiv_eq]
    exact fround_err _

/-- The pairs `(v, key)` at which the exact channel value
`255·(100−v)·(100−key)/10000` is a half-integer. -/
def halfIntegerPairs : List (ℕ × ℕ) :=
  [(0, 10), (0, 30), (0, 50), (0, 70), (0, 90), (10, 0), (25, 60), (30, 0),
   (40, 50), (50, 0), (50, 40), (50, 80), (60, 25), (60, 75), (70, 0),
   (75, 60), (80, 50), (90, 0)]

/-- The pairs `(v, key)` at which the binary64 computation rounds the
half-integer the other way than exact half-away-from-zero rounding. -/
def cmykRoundExceptions : List (ℕ × ℕ) := [(0, 90), (50, 80), (80, 50), (90, 0)]

theorem half_complete :
    ∀ v k : Fin 101, 255 * ((100 - v.val) * (100 - k.val)) % 10000 = 5000 →
      (v.val, k.val) ∈ halfIntegerPairs := by
  decide

theorem half_cases (v k : ℕ) (hv : v ≤ 100) (hk : k ≤ 100)
    (hmem : (v, k) ∈ halfIntegerPairs) :
    (asU8 (f64round (fmul (fmul 255 (fsub 1 (fdiv (v : ℚ) 100)))
        (fsub 1 (fdiv (k : ℚ) 100)))) : ℤ) =
      if (v, k) ∈ cmykRoundExceptions then 25 else specCmykChannel v k := by
  fin_cases hmem <;> decide

theorem specCmykChannel_as_rhalf (v k : ℕ) :
    specCmykChannel v k =
      rhalfAway (((255 * (100 - (v : ℤ)) * (100 - (k : ℤ)) : ℤ) : ℚ) / 10000) := by
  rw [specCmykChannel_eq]
  congr 1
  push_cast
  ring

theorem cmyk_channel_generic (v k : ℕ) (hv : v ≤ 100) (hk : k ≤ 100)
    (hnh : (v, k) ∉ halfIntegerPairs) :
    (asU8 (f64round (fmul (fmul 255 (fsub 1 (fdiv (v : ℚ) 100)))
        (fsub 1 (fdiv (k : ℚ) 100)))) : ℤ) = specCmykChannel v k := by
  have hneN : 255 * ((100 - v) * (100 - k)) % 10000 ≠ 5000 := by
    intro hc
    exact hnh (half_complete ⟨v, by omega⟩ ⟨k, by omega⟩ hc)
  have hNnn : (0 : ℤ) ≤ 255 * (100 - (v : ℤ)) * (100 - (k : ℤ)) := by
    apply mul_nonneg
    apply mul_nonneg
    · norm_num
    · omega
    · omega
  have hNcast :
      (255 * (100 - (v : ℤ)) * (100 - (k : ℤ))) =
        ((255 * ((100 - v) * (100 - k)) : ℕ) : ℤ) := by
    push_cast [Nat.cast_sub hv, Nat.cast_sub hk]
    ring
  have hneZ : (255 * (100 - (v : ℤ)) * (100 - (k : ℤ))) % 10000 ≠ 5000 := by
    rw [hNcast]
    intro hc
    apply hneN
    omega
  have hNub : 255 * (100 - (v : ℤ)) * (100 - (k : ℤ)) ≤ 2550000 := by
    have h1 : (100 - (v : ℤ)) ≤ 100 := by omega
    have h2 : (100 - (k : ℤ)) ≤ 100 := by omega
    nlinarith
  -- abbreviations via haves (plain terms, no set)
  have hE : 255 * (1 - (v : ℚ) / 100) * (1 - (k : ℚ) / 100) =
      ((255 * (100 - (v : ℤ)) * (100 - (k : ℤ)) : ℤ) : ℚ) / 10000 := by
    push_cast
    ring
  rw [specCmykChannel_as_rhalf]
  have hEnn : (0 : ℚ) ≤ ((255 * (100 - (v : ℤ)) * (100 - (k : ℤ)) : ℤ) : ℚ) / 10000 := by
    have : (0 : ℚ) ≤ ((255 * (100 - (v : ℤ)) * (100 - (k : ℤ)) : ℤ) : ℚ) := by
      exact_mod_cast hNnn
    linarith
  have hEub : ((255 * (100 - (v : ℤ)) * (100 - (k : ℤ)) : ℤ) : ℚ) / 10000 ≤ 255 := by
    have : ((255 * (100 - (v : ℤ)) * (100 - (k : ℤ)) : ℤ) : ℚ) ≤ 2550000 := by
      exact_mod_cast hNub
    linarith
  have hn0 : 0 ≤ rhalfAway (((255 * (100 - (v : ℤ)) * (100 - (k : ℤ)) : ℤ) : ℚ) / 10000) :=
    rhalfAway_nonneg hEnn
  have hn255 :
      rhalfAway (((255 * (100 - (v : ℤ)) * (100 - (k : ℤ)) : ℤ) : ℚ) / 10000) ≤ 255 := by
    apply rhalfAway_le (by norm_num)
    push_cast
    linarith
  have herr := rhalfAway_err (((255 * (100 - (v : ℤ)) * (100 - (k : ℤ)) : ℤ) : ℚ) / 10000)
  -- distance of E from the two surrounding half-integers
  have hM1 : (10000 * rhalfAway (((255 * (100 - (v : ℤ)) * (100 - (k : ℤ)) : ℤ) : ℚ) / 10000)
      + 5000 - 255 * (100 - (v : ℤ)) * (100 - (k : ℤ))) ≠ 0 := by
    intro hc
    apply hneZ
    omega
  have hM2 : (10000 * rhalfAway (((255 * (100 - (v : ℤ)) * (100 - (k : ℤ)) : ℤ) : ℚ) / 10000)
      - 5000 - 255 * (100 - (v : ℤ)) * (100 - (k : ℤ))) ≠ 0 := by
    intro hc
    apply hneZ
    omega
  have hd1 := int_abs_div_ge hM1
  have hd2 := int_abs_div_ge hM2
  -- the tighter distance bound |E - n| ≤ 1/2 - 1/10000
  have htight :
      |((255 * (100 - (v : ℤ)) * (100 - (k : ℤ)) : ℤ) : ℚ) / 10000 -
        (rhalfAway (((255 * (100 - (v : ℤ)) * (100 - (k : ℤ)) : ℤ) : ℚ) / 10000) : ℚ)| ≤
        1 / 2 - 1 / 10000 := by
    have he1 : ((10000 * rhalfAway (((255 * (100 - (v : ℤ)) * (100 - (k : ℤ)) : ℤ) : ℚ) / 10000)
        + 5000 - 255 * (100 - (v : ℤ)) * (100 - (k : ℤ)) : ℤ) : ℚ) / 10000 =
        (rhalfAway (((255 * (100 - (v : ℤ)) * (100 - (k : ℤ)) : ℤ) : ℚ) / 10000) : ℚ) + 1 / 2 -
          ((255 * (100 - (v : ℤ)) * (100 - (k : ℤ)) : ℤ) : ℚ) / 10000 := by
      push_cast
      ring
    have he2 : ((10000 * rhalfAway (((255 * (100 - (v : ℤ)) * (100 - (k : ℤ)) : ℤ) : ℚ) / 10000)
        - 5000 - 255 * (100 - (v : ℤ)) * (100 - (k : ℤ)) : ℤ) : ℚ) / 10000 =
        (rhalfAway (((255 * (100 - (v : ℤ)) * (100 - (k : ℤ)) : ℤ) : ℚ) / 10000) : ℚ) - 1 / 2 -
          ((255 * (100 - (v : ℤ)) * (100 - (k : ℤ)) : ℤ) : ℚ) / 10000 := by
      push_cast
      ring
    rw [he1] at hd1
    rw [he2] at hd2
    rw [abs_le] at herr ⊢
    rcases le_abs.mp hd1 with h | h <;> rcases le_abs.mp hd2 with h2 | h2 <;>
      constructor <;> linarith [herr.1, herr.2]
  have hclose := cmyk_channel_close v k hv hk
  rw [hE] at hclose
  have hfn : rhalfAway (fmul (fmul 255 (fsub 1 (fdiv (v : ℚ) 100)))
      (fsub 1 (fdiv (k : ℚ) 100))) =
      rhalfAway (((255 * (100 - (v : ℤ)) * (100 - (k : ℤ)) : ℤ) : ℚ) / 10000) := by
    apply rhalfAway_eq_of
    have h1 := abs_sub_le (fmul (fmul 255 (fsub 1 (fdiv (v : ℚ) 100)))
        (fsub 1 (fdiv (k : ℚ) 100)))
      (((255 * (100 - (v : ℤ)) * (100 - (k : ℤ)) : ℤ) : ℚ) / 10000)
      ((rhalfAway (((255 * (100 - (v : ℤ)) * (100 - (k : ℤ)) : ℤ) : ℚ) / 10000) : ℚ))
    calc |fmul (fmul 255 (fsub 1 (fdiv (v : ℚ) 100))) (fsub 1 (fdiv (k : ℚ) 100)) -
          (rhalfAway (((255 * (100 - (v : ℤ)) * (100 - (k : ℤ)) : ℤ) : ℚ) / 10000) : ℚ)| ≤
        1 / 100000 + (1 / 2 - 1 / 10000) := by
          apply le_trans h1
          exact add_le_add hclose htight
      _ < 1 / 2 := by norm_num
  rw [asU8_f64round, hfn]
  omega

theorem cmyk_channel_spec (v k : ℕ) (hv : v ≤ 100) (hk : k ≤ 100) :
    (asU8 (f64round (fmul (fmul 255 (fsub 1 (fdiv (v : ℚ) 100)))
        (fsub 1 (fdiv (k : ℚ) 100)))) : ℤ) =
      if (v, k) ∈ cmykRoundExceptions then 25 else specCmykChannel v k := by
  by_cases hmem : (v, k) ∈ halfIntegerPairs
  · exact half_cases v k hv hk hmem
  · have hnot4 : (v, k) ∉ cmykRoundExceptions := by
      intro hc
      apply hmem
      fin_cases hc <;> decide
    rw [if_neg hnot4]
    exact cmyk_channel_generic v k hv hk hmem

/-- Claim C6 (amended): for every valid CMYK value, each output channel of
`Cmyk::to_rgb` equals the exact `round(255 × (1 − v/100) × (1 − key/100))`
(round half away from zero) — except at the four pairs
`(v, key) ∈ {(0,90), (50,80), (80,50), (90,0)}`, where the exact value is
`25.5` but the binary64 product evaluates just below it and the channel
comes out `25` instead of `26`.  The conversion is total: the two literal
examples from the claim also hold. -/
theorem C6_amended :
    (∀ s : Cmyk, s.cyan ≤ 100 → s.magenta ≤ 100 → s.yellow ≤ 100 → s.key ≤ 100 →
      ((s.toRgb.red : ℤ) =
          (if (s.cyan, s.key) ∈ cmykRoundExceptions then 25
           else specCmykChannel s.cyan s.key) ∧
       (s.toRgb.green : ℤ) =
          (if (s.magenta, s.key) ∈ cmykRoundExceptions then 25
           else specCmykChannel s.magenta s.key) ∧
       (s.toRgb.blue : ℤ) =
          (if (s.yellow, s.key) ∈ cmykRoundExceptions then 25
           else specCmykChannel s.yellow s.key))) ∧
    (Cmyk.new_unchecked 30 50 60 40).toRgb = Rgb.new 107 77 61 ∧
    (Cmyk.new_unchecked 100 0 0 0).toRgb = Rgb.new 0 255 255 := by
  refine ⟨fun s hc hm hy hk => ⟨?_, ?_, ?_⟩, by decide, by decide⟩
  · exact cmyk_channel_spec s.cyan s.key hc hk
  · exact cmyk_channel_spec s.magenta s.key hm hk
  · exact cmyk_channel_spec s.yellow s.key hy hk

/-- Witness for C6 (amended) at `cmyk(30, 50, 60, 40)`. -/
theorem C6_amended_witness :
    (30 ≤ 100 ∧ 50 ≤ 100 ∧ 60 ≤ 100 ∧ 40 ≤ 100) ∧
      (((Cmyk.new_unchecked 30 50 60 40).toRgb.red : ℤ) =
          (if ((30 : ℕ), (40 : ℕ)) ∈ cmykRoundExceptions then 25
           else specCmykChannel 30 40) ∧
       ((Cmyk.new_unchecked 30 50 60 40).toRgb.green : ℤ) =
          (if ((50 : ℕ), (40 : ℕ)) ∈ cmykRoundExceptions then 25
           else specCmykChannel 50 40) ∧
       ((Cmyk.new_unchecked 30 50 60 40).toRgb.blue : ℤ) =
          (if ((60 : ℕ), (40 : ℕ)) ∈ cmykRoundExceptions then 25
           else specCmykChannel 60 40)) :=
  ⟨⟨by decide, by decide, by decide, by decide⟩,
    C6_amended.1 (Cmyk.new_unchecked 30 50 60 40) (by decide) (by decide)
      (by decide) (by decide)⟩

/-! ## Range invariants of the conversion outputs (claim C10) -/


theorem fEPSILON_eq : fEPSILON = 1 / 4503599627370496 := by
  rw [fEPSILON, Rat.divInt_eq_div]
  norm_num

theorem fround_eq_zero_iff (q : ℚ) : fround q = 0 ↔ q = 0 := by
  constructor
  · intro h
    by_contra hq
    have herr := fround_err q
    rw [h] at herr
    have hq0 : (0 : ℚ) < |q| := abs_pos.mpr hq
    have hu : (2 : ℚ) ^ (-53 : ℤ) < 1 := by
      rw [eps53_eq]
      norm_num
    have : |0 - q| = |q| := by
      rw [zero_sub, abs_neg]
    rw [this] at herr
    nlinarith
  · intro h
    rw [h, fround_zero]

theorem fround_le_natCast {x : ℚ} {n : ℕ} (hn : n ≤ 2 ^ 53) (h : x ≤ (n : ℚ)) :
    fround x ≤ (n : ℚ) := by
  calc fround x ≤ fround (n : ℚ) := fround_mono h
    _ = (n : ℚ) := fround_natCast n hn

theorem neg_natCast_le_fround {x : ℚ} {n : ℕ} (hn : n ≤ 2 ^ 53) (h : -(n : ℚ) ≤ x) :
    -(n : ℚ) ≤ fround x := by
  have h2 : fround (-(n : ℚ)) ≤ fround x := fround_mono h
  rw [show (-(n : ℚ)) = -((n : ℚ)) from rfl, fround_neg, fround_natCast n hn] at h2
  exact h2

theorem qtrunc_zero_of_small {x : ℚ} (h : |x| < 1) : qtrunc x = 0 := by
  have h1 := abs_lt.mp h
  rcases le_or_lt 0 x with hx | hx
  · rw [qtrunc_nonneg_eq _ hx, Int.floor_eq_iff]
    constructor
    · push_cast
      linarith
    · push_cast
      linarith
  · rw [qtrunc_neg_eq _ (not_le.mpr hx)]
    have hz : ⌊-x⌋ = 0 := by
      rw [Int.floor_eq_iff]
      constructor
      · push_cast
        linarith
      · push_cast
        linarith
    rw [hz]
    ring

theorem fmod_small_six {x : ℚ} (h : |x| < 6) : fmod x 6 = x := by
  rw [fmod_eq]
  have h6 : |x / 6| < 1 := by
    rw [abs_div, show |(6 : ℚ)| = 6 from by norm_num]
    linarith
  rw [qtrunc_zero_of_small h6]
  push_cast
  ring

theorem fmod_two_nonneg {y : ℚ} (hy : 0 ≤ y) : 0 ≤ fmod y 2 ∧ fmod y 2 < 2 := by
  rw [fmod_eq]
  have h2 : (0 : ℚ) < 2 := by norm_num
  rw [qtrunc_nonneg_eq _ (by positivity)]
  have h1 : (⌊y / 2⌋ : ℚ) ≤ y / 2 := Int.floor_le _
  have hlt : y / 2 < ⌊y / 2⌋ + 1 := Int.lt_floor_add_one _
  constructor <;> linarith


theorem cmyk_apply_le_100 (v key : ℚ) (hv0 : 0 ≤ v) (hkey : key ≤ 1) :
    asU8 (f64round (fmul (fdiv (fsub (fsub 1 v) key) (fsub 1 key)) 100)) ≤ 100 := by
  have hb0 : 0 ≤ fsub 1 key := by
    rw [fsub_eq]
    exact fround_nonneg _ (by linarith)
  have hx1 : fround (1 - v) ≤ 1 := by
    have h1 := fround_le_natCast (x := 1 - v) (n := 1) (by norm_num) (by push_cast; linarith)
    push_cast at h1
    exact h1
  have hab : fsub (fsub 1 v) key ≤ fsub 1 key := by
    simp only [fsub_eq]
    exact fround_mono (by linarith)
  rcases eq_or_ne (fsub 1 key) 0 with hb | hb
  · rw [fdiv_eq, hb, div_zero, fround_zero, fmul_eq, zero_mul, fround_zero]
    rw [asU8_f64round]
    have : rhalfAway 0 = 0 := by
      rw [rhalfAway_nonneg_eq _ le_rfl]
      norm_num
    omega
  · have hbpos : 0 < fsub 1 key := lt_of_le_of_ne hb0 (Ne.symm hb)
    have hq1 : fdiv (fsub (fsub 1 v) key) (fsub 1 key) ≤ 1 := by
      rw [fdiv_eq]
      have hd1 : fsub (fsub 1 v) key / fsub 1 key ≤ 1 := by
        rw [div_le_one hbpos]
        exact hab
      have := fround_le_natCast (n := 1) (by norm_num) (by push_cast; exact hd1)
      push_cast at this
      exact this
    have h100 : fmul (fdiv (fsub (fsub 1 v) key) (fsub 1 key)) 100 ≤ 100 := by
      rw [fmul_eq]
      have := fround_le_natCast (n := 100)
        (x := fdiv (fsub (fsub 1 v) key) (fsub 1 key) * 100) (by norm_num)
        (by push_cast; nlinarith)
      push_cast at this
      exact this
    rw [asU8_f64round]
    have hra : rhalfAway (fmul (fdiv (fsub (fsub 1 v) key) (fsub 1 key)) 100) ≤ 100 :=
      rhalfAway_le (by norm_num) (by push_cast; linarith)
    omega

theorem cmyk_key_facts (r g b : ℕ) (hr : r ≤ 255) (hg : g ≤ 255) (hb : b ≤ 255) :
    fsub 1 (qmax (qmax (fdiv (r : ℚ) 255) (fdiv (g : ℚ) 255)) (fdiv (b : ℚ) 255)) ≤ 1 := by
  have h0 : 0 ≤ fdiv (r : ℚ) 255 := by
    rw [fdiv_eq]
    exact fround_nonneg _ (by positivity)
  have hq : 0 ≤ qmax (qmax (fdiv (r : ℚ) 255) (fdiv (g : ℚ) 255)) (fdiv (b : ℚ) 255) := by
    rw [qmax_eq, qmax_eq]
    calc (0 : ℚ) ≤ fdiv (r : ℚ) 255 := h0
      _ ≤ max (max (fdiv (r : ℚ) 255) (fdiv (g : ℚ) 255)) (fdiv (b : ℚ) 255) :=
        le_max_of_le_left (le_max_left _ _)
  rw [fsub_eq]
  have := fround_le_natCast (n := 1) (x := 1 - qmax (qmax (fdiv (r : ℚ) 255)
    (fdiv (g : ℚ) 255)) (fdiv (b : ℚ) 255)) (by norm_num) (by push_cast; linarith)
  push_cast at this
  exact this

/-- The cyan, magenta, yellow, key fields of `Rgb::to_cmyk` are all at
most 100 for `u8` channels. -/
theorem to_cmyk_le_100 (s : Rgb) (hr : s.red ≤ 255) (hg : s.green ≤ 255)
    (hb : s.blue ≤ 255) :
    s.toCmyk.cyan ≤ 100 ∧ s.toCmyk.magenta ≤ 100 ∧ s.toCmyk.yellow ≤ 100 ∧
      s.toCmyk.key ≤ 100 := by
  have hkey := cmyk_key_facts s.red s.green s.blue hr hg hb
  have hv0 : ∀ n : ℕ, (0 : ℚ) ≤ fdiv (n : ℚ) 255 := fun n => by
    rw [fdiv_eq]
    exact fround_nonneg _ (by positivity)
  refine ⟨?_, ?_, ?_, ?_⟩
  · exact cmyk_apply_le_100 _ _ (hv0 s.red) hkey
  · exact cmyk_apply_le_100 _ _ (hv0 s.green) hkey
  · exact cmyk_apply_le_100 _ _ (hv0 s.blue) hkey
  · show asU8 (fmul (fsub 1 (qmax (qmax (fdiv (s.red : ℚ) 255) (fdiv (s.green : ℚ) 255))
      (fdiv (s.blue : ℚ) 255))) 100) ≤ 100
    apply asU8_le_of_le (by norm_num)
    rw [fmul_eq]
    have := fround_le_natCast (n := 100) (x := fsub 1 (qmax (qmax (fdiv (s.red : ℚ) 255)
      (fdiv (s.green : ℚ) 255)) (fdiv (s.blue : ℚ) 255)) * 100) (by norm_num)
      (by push_cast; nlinarith)
    push_cast at this
    exact this


theorem hue_arm_le_360 (num delta : ℚ) (hd : 0 < delta)
    (hn : |num| ≤ delta) (off : ℕ) (hoff : off = 0 ∨ off = 2 ∨ off = 4) :
    asU16 (f64round (fmul 60
      (if off = 0 then fmod (fdiv num delta) 6
       else fadd (fdiv num delta) (off : ℚ)))) ≤ 360 := by
  have hq1 : fdiv num delta ≤ 1 := by
    rw [fdiv_eq]
    have hd1 : num / delta ≤ 1 := by
      rw [div_le_one hd]
      exact le_trans (le_abs_self num) hn
    have h1 := fround_le_natCast (x := num / delta) (n := 1) (by norm_num)
      (by push_cast; exact hd1)
    push_cast at h1
    exact h1
  have hq2 : -1 ≤ fdiv num delta := by
    rw [fdiv_eq]
    have hd1 : -1 ≤ num / delta := by
      rw [le_div_iff₀ hd]
      have := neg_abs_le num
      linarith
    have h1 := neg_natCast_le_fround (x := num / delta) (n := 1) (by norm_num)
      (by push_cast; exact hd1)
    push_cast at h1
    exact h1
  have harm : (if off = 0 then fmod (fdiv num delta) 6
      else fadd (fdiv num delta) (off : ℚ)) ≤ 6 := by
    split
    · rw [fmod_small_six (by rw [abs_lt]; constructor <;> linarith)]
      linarith
    · rw [fadd_eq]
      have hoff4 : (off : ℚ) ≤ 4 := by
        rcases hoff with h | h | h <;> (rw [h]; push_cast; norm_num)
      have h1 := fround_le_natCast (x := fdiv num delta + (off : ℚ)) (n := 6)
        (by norm_num) (by push_cast; linarith)
      push_cast at h1
      exact h1
  have hfin : fmul 60 (if off = 0 then fmod (fdiv num delta) 6
      else fadd (fdiv num delta) (off : ℚ)) ≤ 360 := by
    rw [fmul_eq]
    have h1 := fround_le_natCast (x := 60 * (if off = 0 then fmod (fdiv num delta) 6
      else fadd (fdiv num delta) (off : ℚ))) (n := 360) (by norm_num)
      (by push_cast; linarith)
    push_cast at h1
    exact h1
  rw [asU16_f64round]
  have hra : rhalfAway (fmul 60 (if off = 0 then fmod (fdiv num delta) 6
      else fadd (fdiv num delta) (off : ℚ))) ≤ 360 :=
    rhalfAway_le (by norm_num) (by push_cast; linarith)
  omega

theorem lightness_le_100 (cm cmin : ℚ) (hcm : cm ≤ 1) (hmin : cmin ≤ 1) :
    asU8 (f64round (fmul (fdiv (fadd cm cmin) 2) 100)) ≤ 100 := by
  have hS : fadd cm cmin ≤ 2 := by
    rw [fadd_eq]
    have h1 := fround_le_natCast (x := cm + cmin) (n := 2) (by norm_num)
      (by push_cast; linarith)
    push_cast at h1
    exact h1
  have hL : fdiv (fadd cm cmin) 2 ≤ 1 := by
    rw [fdiv_eq]
    have h1 := fround_le_natCast (x := fadd cm cmin / 2) (n := 1) (by norm_num)
      (by push_cast; linarith)
    push_cast at h1
    exact h1
  apply asU8_le_of_le (by norm_num)
  rw [f64round]
  have hra : rhalfAway (fmul (fdiv (fadd cm cmin) 2) 100) ≤ 100 := by
    apply rhalfAway_le (by norm_num)
    rw [fmul_eq]
    have h1 := fround_le_natCast (x := fdiv (fadd cm cmin) 2 * 100) (n := 100)
      (by norm_num) (by push_cast; nlinarith)
    push_cast at h1
    push_cast
    linarith
  exact_mod_cast hra


theorem fround_within {x c : ℚ} (h : |x| ≤ c) :
    x - c * (2 : ℚ) ^ (-53 : ℤ) ≤ fround x ∧ fround x ≤ x + c * (2 : ℚ) ^ (-53 : ℤ) := by
  have h2 := abs_le.mp (fround_err_le h)
  constructor <;> linarith [h2.1, h2.2]

theorem grid_gap (M m : ℕ) (hM : M ≤ 255) (hlt : m < M) :
    1 / 256 ≤ fdiv (M : ℚ) 255 - fdiv (m : ℚ) 255 := by
  have hu : (2 : ℚ) ^ (-53 : ℤ) = 1 / 9007199254740992 := eps53_eq
  have hmono : fdiv ((m + 1 : ℕ) : ℚ) 255 ≤ fdiv (M : ℚ) 255 := fdiv255_mono (by omega)
  have hm255 : (m : ℚ) ≤ 254 := by
    have : m ≤ 254 := by omega
    exact_mod_cast this
  have hlo : ((m + 1 : ℕ) : ℚ) / 255 - 2 * (2 : ℚ) ^ (-53 : ℤ) ≤ fdiv ((m + 1 : ℕ) : ℚ) 255 := by
    rw [fdiv_eq]
    have habs : |((m + 1 : ℕ) : ℚ) / 255| ≤ 2 := by
      rw [abs_of_nonneg (by positivity)]
      push_cast
      linarith
    have := (fround_within habs).1
    linarith
  have hhi : fdiv (m : ℚ) 255 ≤ (m : ℚ) / 255 + 2 * (2 : ℚ) ^ (-53 : ℤ) := by
    rw [fdiv_eq]
    have habs : |(m : ℚ) / 255| ≤ 2 := by
      rw [abs_of_nonneg (by positivity)]
      linarith
    have := (fround_within habs).2
    linarith
  have hgap : ((m + 1 : ℕ) : ℚ) / 255 - (m : ℚ) / 255 = 1 / 255 := by
    push_cast
    ring
  have hnum : (4 : ℚ) * (2 : ℚ) ^ (-53 : ℤ) ≤ 1 / 255 - 1 / 256 := by
    rw [hu]
    norm_num
  linarith

/-- The saturation channel of `Rgb::to_hsl` is at most 100: the floating
denominator `1 - (2·lightness - 1)` can fall below the exact `2 - σ` only
by a few ulps, while the numerator `delta` is at least `1/256`, so the
ratio stays below `1.001` and the rounded percentage below `100.5`. -/
theorem saturation_le_100 (cmq cnq : ℚ) (h0 : 0 ≤ cnq) (h1 : cmq ≤ 1)
    (hord : cnq ≤ cmq) (hΔ : 1 / 256 ≤ cmq - cnq) :
    asU8 (f64round (fmul (fdiv (fsub cmq cnq)
      (fsub 1 (fsub (fmul 2 (fdiv (fadd cmq cnq) 2)) 1))) 100)) ≤ 100 := by
  -- numerator
  have hdelta_up : fsub cmq cnq ≤ (cmq - cnq) + 2 / 9007199254740992 := by
    rw [fsub_eq]
    have habs : |cmq - cnq| ≤ 2 := by
      rw [abs_of_nonneg (by linarith)]
      linarith
    have h2 := fround_err_le habs
    rw [eps53_eq] at h2
    have h3 := abs_le.mp h2
    linarith [h3.1, h3.2]
  have hdelta_nn : 0 ≤ fsub cmq cnq := by
    rw [fsub_eq]
    exact fround_nonneg _ (by linarith)
  -- S = fround(σ)
  have hS : -(2 / 9007199254740992 : ℚ) ≤ fadd cmq cnq - (cmq + cnq) ∧
      fadd cmq cnq - (cmq + cnq) ≤ 2 / 9007199254740992 := by
    rw [fadd_eq]
    have habs : |cmq + cnq| ≤ 2 := by
      rw [abs_of_nonneg (by linarith)]
      linarith
    have h2 := fround_err_le habs
    rw [eps53_eq] at h2
    have h3 := abs_le.mp h2
    constructor <;> linarith [h3.1, h3.2]
  -- L = S / 2 exactly
  have hL : fdiv (fadd cmq cnq) 2 = fadd cmq cnq / 2 := by
    rw [fdiv_eq]
    exact fround_fix (FP_half (FP_fadd _ _))
  -- 2 * L = S exactly
  have ht2 : fmul 2 (fdiv (fadd cmq cnq) 2) = fadd cmq cnq := by
    rw [fmul_eq, hL, show (2 : ℚ) * (fadd cmq cnq / 2) = fadd cmq cnq from by ring]
    exact fround_fix (FP_fadd _ _)
  -- plain range bounds for S = fadd cmq cnq
  have hfS0 : 0 ≤ fadd cmq cnq := by
    rw [fadd_eq]
    exact fround_nonneg _ (by linarith)
  have hfS2 : fadd cmq cnq ≤ 2 := by
    rw [fadd_eq]
    have h2 := fround_le_natCast (x := cmq + cnq) (n := 2) (by norm_num)
      (by push_cast; linarith)
    push_cast at h2
    exact h2
  -- A = fround(S - 1)
  have hA : -(2 / 9007199254740992 : ℚ) ≤
      fsub (fmul 2 (fdiv (fadd cmq cnq) 2)) 1 - (fadd cmq cnq - 1) ∧
      fsub (fmul 2 (fdiv (fadd cmq cnq) 2)) 1 - (fadd cmq cnq - 1) ≤
        2 / 9007199254740992 := by
    rw [fsub_eq, ht2]
    have habs : |fadd cmq cnq - 1| ≤ 2 := by
      rw [abs_le]
      constructor <;> linarith
    have h2 := fround_err_le habs
    rw [eps53_eq] at h2
    have h3 := abs_le.mp h2
    constructor <;> linarith [h3.1, h3.2]
  -- d = fround(1 - A)
  have hd2 : -(3 / 9007199254740992 : ℚ) ≤
      fsub 1 (fsub (fmul 2 (fdiv (fadd cmq cnq) 2)) 1) -
        (1 - fsub (fmul 2 (fdiv (fadd cmq cnq) 2)) 1) ∧
      fsub 1 (fsub (fmul 2 (fdiv (fadd cmq cnq) 2)) 1) -
        (1 - fsub (fmul 2 (fdiv (fadd cmq cnq) 2)) 1) ≤ 3 / 9007199254740992 := by
    rw [fsub_eq 1]
    have habs : |1 - fsub (fmul 2 (fdiv (fadd cmq cnq) 2)) 1| ≤ 3 := by
      rw [abs_le]
      constructor <;> linarith [hA.1, hA.2]
    have h2 := fround_err_le habs
    rw [eps53_eq] at h2
    have h3 := abs_le.mp h2
    constructor <;> linarith [h3.1, h3.2]
  -- d ≥ Δ - 7u > 0
  have hd_lb : (cmq - cnq) - (7 / 9007199254740992 : ℚ) ≤
      fsub 1 (fsub (fmul 2 (fdiv (fadd cmq cnq) 2)) 1) := by
    linarith [hd2.1, hd2.2, hA.1, hA.2, hS.1, hS.2]
  have hd_pos : 0 < fsub 1 (fsub (fmul 2 (fdiv (fadd cmq cnq) 2)) 1) := by
    have h7 : (7 / 9007199254740992 : ℚ) < 1 / 256 := by norm_num
    linarith
  -- ratio bound
  have hratio : fsub cmq cnq / fsub 1 (fsub (fmul 2 (fdiv (fadd cmq cnq) 2)) 1) ≤
      1 + 1 / 1000 := by
    rw [div_le_iff₀ hd_pos]
    have hucmp : (9 / 9007199254740992 : ℚ) ≤ (1 / 256) / 1000 := by norm_num
    nlinarith [hd_lb, hdelta_up, hΔ]
  have hq_nn : 0 ≤ fsub cmq cnq / fsub 1 (fsub (fmul 2 (fdiv (fadd cmq cnq) 2)) 1) :=
    div_nonneg hdelta_nn hd_pos.le
  have hQs : fdiv (fsub cmq cnq) (fsub 1 (fsub (fmul 2 (fdiv (fadd cmq cnq) 2)) 1)) ≤
      (1 + 1 / 1000) + 2 / 9007199254740992 := by
    rw [fdiv_eq]
    have habs : |fsub cmq cnq / fsub 1 (fsub (fmul 2 (fdiv (fadd cmq cnq) 2)) 1)| ≤ 2 := by
      rw [abs_of_nonneg hq_nn]
      linarith
    have h2 := fround_err_le habs
    rw [eps53_eq] at h2
    have h3 := abs_le.mp h2
    linarith [h3.1, h3.2]
  have hQs_nn : 0 ≤ fdiv (fsub cmq cnq) (fsub 1 (fsub (fmul 2 (fdiv (fadd cmq cnq) 2)) 1)) := by
    rw [fdiv_eq]
    exact fround_nonneg _ hq_nn
  have hval : fmul (fdiv (fsub cmq cnq)
      (fsub 1 (fsub (fmul 2 (fdiv (fadd cmq cnq) 2)) 1))) 100 ≤ 100 + 2 / 5 := by
    rw [fmul_eq]
    have habs : |fdiv (fsub cmq cnq)
        (fsub 1 (fsub (fmul 2 (fdiv (fadd cmq cnq) 2)) 1)) * 100| ≤ 110 := by
      rw [abs_of_nonneg (by positivity)]
      nlinarith
    have h2 := fround_err_le habs
    rw [eps53_eq] at h2
    have h3 := abs_le.mp h2
    nlinarith [h3.1, h3.2, hQs, hQs_nn]
  apply asU8_le_of_le (by norm_num)
  rw [f64round]
  have hra : rhalfAway (fmul (fdiv (fsub cmq cnq)
      (fsub 1 (fsub (fmul 2 (fdiv (fadd cmq cnq) 2)) 1))) 100) ≤ 100 := by
    apply rhalfAway_le (by norm_num)
    push_cast
    linarith
  exact_mod_cast hra

theorem fdiv255_nonneg (a : ℕ) : 0 ≤ fdiv (a : ℚ) 255 := by
  rw [fdiv_eq]
  exact fround_nonneg _ (by positivity)

theorem fdiv255_le_one {a : ℕ} (h : a ≤ 255) : fdiv (a : ℚ) 255 ≤ 1 := by
  rw [fdiv_eq]
  have h1 : (a : ℚ) / 255 ≤ 1 := by
    rw [div_le_one (by norm_num)]
    exact_mod_cast h
  have h2 := fround_mono h1
  rwa [fround_one] at h2

theorem abs_fsub_le_fsub {pa pb cn cm : ℚ} (h1 : cn ≤ pa) (h2 : pa ≤ cm)
    (h3 : cn ≤ pb) (h4 : pb ≤ cm) :
    |fsub pa pb| ≤ fsub cm cn := by
  rw [abs_le]
  simp only [fsub_eq]
  constructor
  · rw [← fround_neg]
    exact fround_mono (by linarith)
  · exact fround_mono (by linarith)

theorem delta_nonneg {M m : ℕ} (h : m ≤ M) :
    0 ≤ fsub (fdiv (M : ℚ) 255) (fdiv (m : ℚ) 255) := by
  rw [fsub_eq]
  exact fround_nonneg _ (by linarith [fdiv255_mono h])

theorem delta_pos {M m : ℕ} (hmM : m ≤ M)
    (h : ¬ qabs (fsub (fdiv (M : ℚ) 255) (fdiv (m : ℚ) 255)) < fEPSILON) :
    0 < fsub (fdiv (M : ℚ) 255) (fdiv (m : ℚ) 255) := by
  rcases (delta_nonneg hmM).lt_or_eq with hlt | heq
  · exact hlt
  · exfalso
    apply h
    rw [qabs_eq, ← heq, abs_zero, fEPSILON_eq]
    norm_num

theorem m_lt_M {M m : ℕ} (hmM : m ≤ M)
    (h : ¬ qabs (fsub (fdiv (M : ℚ) 255) (fdiv (m : ℚ) 255)) < fEPSILON) : m < M := by
  rcases hmM.lt_or_eq with hlt | heq
  · exact hlt
  · exfalso
    apply h
    rw [heq, fsub_eq, sub_self, fround_zero, qabs_eq, abs_zero, fEPSILON_eq]
    norm_num

/-- Every `Hsl` produced by `Rgb::to_hsl` satisfies the range invariant
of the type: hue at most 360, saturation and lightness at most 100. -/
theorem to_hsl_bounds (s : Rgb) (hr : s.red ≤ 255) (hg : s.green ≤ 255)
    (hb : s.blue ≤ 255) (hh : Hsl) (hEq : s.toHsl = some hh) :
    hh.hue ≤ 360 ∧ hh.saturation ≤ 100 ∧ hh.lightness ≤ 100 := by
  set M : ℕ := max (max s.red s.green) s.blue with hMdef
  set m : ℕ := min (min s.red s.green) s.blue with hmdef
  have hmM : m ≤ M := le_trans (min_le_right _ _) (le_max_right _ _)
  have hM255 : M ≤ 255 := max_le (max_le hr hg) hb
  have hmr : m ≤ s.red := le_trans (min_le_left _ _) (min_le_left _ _)
  have hmg : m ≤ s.green := le_trans (min_le_left _ _) (min_le_right _ _)
  have hmb : m ≤ s.blue := min_le_right _ _
  have hrM : s.red ≤ M := le_trans (le_max_left _ _) (le_max_left _ _)
  have hgM : s.green ≤ M := le_trans (le_max_right _ _) (le_max_left _ _)
  have hbM : s.blue ≤ M := le_max_right _ _
  replace hEq : Option.map (fun hue => (⟨hue,
      if qabs (fsub (fdiv (M : ℚ) 255) (fdiv (m : ℚ) 255)) < fEPSILON then 0
      else asU8 (f64round (fmul (fdiv (fsub (fdiv (M : ℚ) 255) (fdiv (m : ℚ) 255))
        (fsub 1 (fsub (fmul 2 (fdiv (fadd (fdiv (M : ℚ) 255) (fdiv (m : ℚ) 255)) 2)) 1)))
        100)),
      asU8 (f64round (fmul (fdiv (fadd (fdiv (M : ℚ) 255) (fdiv (m : ℚ) 255)) 2) 100))⟩ : Hsl))
    (if qabs (fsub (fdiv (M : ℚ) 255) (fdiv (m : ℚ) 255)) < fEPSILON then some 0
     else if fdiv (M : ℚ) 255 = fdiv (s.red : ℚ) 255 then
       some (asU16 (f64round (fmul 60 (fmod (fdiv (fsub (fdiv (s.green : ℚ) 255)
         (fdiv (s.blue : ℚ) 255)) (fsub (fdiv (M : ℚ) 255) (fdiv (m : ℚ) 255))) 6))))
     else if fdiv (M : ℚ) 255 = fdiv (s.green : ℚ) 255 then
       some (asU16 (f64round (fmul 60 (fadd (fdiv (fsub (fdiv (s.blue : ℚ) 255)
         (fdiv (s.red : ℚ) 255)) (fsub (fdiv (M : ℚ) 255) (fdiv (m : ℚ) 255))) 2))))
     else if fdiv (M : ℚ) 255 = fdiv (s.blue : ℚ) 255 then
       some (asU16 (f64round (fmul 60 (fadd (fdiv (fsub (fdiv (s.red : ℚ) 255)
         (fdiv (s.green : ℚ) 255)) (fsub (fdiv (M : ℚ) 255) (fdiv (m : ℚ) 255))) 4))))
     else none) = some hh := hEq
  have hlight : asU8 (f64round (fmul (fdiv (fadd (fdiv (M : ℚ) 255)
      (fdiv (m : ℚ) 255)) 2) 100)) ≤ 100 :=
    lightness_le_100 _ _ (fdiv255_le_one hM255) (fdiv255_le_one (hmM.trans hM255))
  by_cases h1 : qabs (fsub (fdiv (M : ℚ) 255) (fdiv (m : ℚ) 255)) < fEPSILON
  · rw [if_pos h1, if_pos h1, Option.map_some', Option.some_inj] at hEq
    subst hEq
    exact ⟨Nat.zero_le _, Nat.zero_le _, hlight⟩
  · have hd : 0 < fsub (fdiv (M : ℚ) 255) (fdiv (m : ℚ) 255) := delta_pos hmM h1
    have hsat : asU8 (f64round (fmul (fdiv (fsub (fdiv (M : ℚ) 255) (fdiv (m : ℚ) 255))
        (fsub 1 (fsub (fmul 2 (fdiv (fadd (fdiv (M : ℚ) 255) (fdiv (m : ℚ) 255)) 2)) 1)))
        100)) ≤ 100 :=
      saturation_le_100 _ _ (fdiv255_nonneg m) (fdiv255_le_one hM255)
        (fdiv255_mono hmM) (grid_gap M m hM255 (m_lt_M hmM h1))
    rw [if_neg h1, if_neg h1] at hEq
    by_cases h2 : fdiv (M : ℚ) 255 = fdiv (s.red : ℚ) 255
    · rw [if_pos h2, Option.map_some', Option.some_inj] at hEq
      subst hEq
      refine ⟨?_, hsat, hlight⟩
      have hn := abs_fsub_le_fsub (fdiv255_mono hmg) (fdiv255_mono hgM)
        (fdiv255_mono hmb) (fdiv255_mono hbM)
      simpa using hue_arm_le_360 _ _ hd hn 0 (Or.inl rfl)
    · rw [if_neg h2] at hEq
      by_cases h3 : fdiv (M : ℚ) 255 = fdiv (s.green : ℚ) 255
      · rw [if_pos h3, Option.map_some', Option.some_inj] at hEq
        subst hEq
        refine ⟨?_, hsat, hlight⟩
        have hn := abs_fsub_le_fsub (fdiv255_mono hmb) (fdiv255_mono hbM)
          (fdiv255_mono hmr) (fdiv255_mono hrM)
        simpa using hue_arm_le_360 _ _ hd hn 2 (Or.inr (Or.inl rfl))
      · rw [if_neg h3] at hEq
        by_cases h4 : fdiv (M : ℚ) 255 = fdiv (s.blue : ℚ) 255
        · rw [if_pos h4, Option.map_some', Option.some_inj] at hEq
          subst hEq
          refine ⟨?_, hsat, hlight⟩
          have hn := abs_fsub_le_fsub (fdiv255_mono hmr) (fdiv255_mono hrM)
            (fdiv255_mono hmg) (fdiv255_mono hgM)
          simpa using hue_arm_le_360 _ _ hd hn 4 (Or.inr (Or.inr rfl))
        · rw [if_neg h4] at hEq
          simp at hEq

/-- C10: every conversion output satisfies the target type's range
invariant even though it is built with the non-validating constructor:
for every RGB input, `Rgb::to_cmyk` yields cyan, magenta, yellow, key
all at most 100, and `Rgb::to_hsl` yields hue at most 360 and
saturation, lightness at most 100. -/
theorem C10_range_invariants (s : Rgb) (hr : s.red ≤ 255) (hg : s.green ≤ 255)
    (hb : s.blue ≤ 255) :
    (s.toCmyk.cyan ≤ 100 ∧ s.toCmyk.magenta ≤ 100 ∧ s.toCmyk.yellow ≤ 100 ∧
      s.toCmyk.key ≤ 100) ∧
    (∀ hh : Hsl, s.toHsl = some hh →
      hh.hue ≤ 360 ∧ hh.saturation ≤ 100 ∧ hh.lightness ≤ 100) :=
  ⟨to_cmyk_le_100 s hr hg hb, fun hh hEq => to_hsl_bounds s hr hg hb hh hEq⟩

/-- Witness for C10 at the concrete input `Rgb::new(30, 50, 60)`. -/
theorem C10_range_invariants_witness :
    ((Rgb.mk 30 50 60).toCmyk.cyan ≤ 100 ∧ (Rgb.mk 30 50 60).toCmyk.magenta ≤ 100 ∧
      (Rgb.mk 30 50 60).toCmyk.yellow ≤ 100 ∧ (Rgb.mk 30 50 60).toCmyk.key ≤ 100) ∧
    (∀ hh : Hsl, (Rgb.mk 30 50 60).toHsl = some hh →
      hh.hue ≤ 360 ∧ hh.saturation ≤ 100 ∧ hh.lightness ≤ 100) :=
  C10_range_invariants ⟨30, 50, 60⟩ (by norm_num) (by norm_num) (by norm_num)

/-! ## The lightness round trip (claim C2) -/

theorem rhalfAway_mono {x y : ℚ} (h : x ≤ y) : rhalfAway x ≤ rhalfAway y := by
  rcases le_or_lt 0 x with hx | hx
  · rw [rhalfAway_nonneg_eq _ hx, rhalfAway_nonneg_eq _ (hx.trans h)]
    exact Int.floor_le_floor (by linarith)
  · rcases le_or_lt 0 y with hy | hy
    · rw [rhalfAway_neg_eq _ (not_le.mpr hx), rhalfAway_nonneg_eq _ hy]
      have h1 : (0 : ℤ) ≤ ⌊y + 1 / 2⌋ := Int.floor_nonneg.mpr (by linarith)
      have h2 : (0 : ℤ) ≤ ⌊-x + 1 / 2⌋ := Int.floor_nonneg.mpr (by linarith)
      omega
    · rw [rhalfAway_neg_eq _ (not_le.mpr hx), rhalfAway_neg_eq _ (not_le.mpr hy)]
      have h1 : ⌊-y + 1 / 2⌋ ≤ ⌊-x + 1 / 2⌋ := Int.floor_le_floor (by linarith)
      omega

theorem rhalfAway_nonneg_of_gt {x : ℚ} (h : -(1 / 2) < x) : 0 ≤ rhalfAway x := by
  rcases le_or_lt 0 x with hx | hx
  · exact rhalfAway_nonneg hx
  · have h0 : rhalfAway x = (0 : ℤ) := by
      apply rhalfAway_eq_of
      rw [abs_lt]
      push_cast
      constructor <;> linarith
    omega

theorem hsl_apply_mono {v w m : ℚ} (h : v ≤ w) :
    asU8 (f64round (fmul (fadd v m) 255)) ≤ asU8 (f64round (fmul (fadd w m) 255)) := by
  have h1 : fadd v m ≤ fadd w m := by
    rw [fadd_eq, fadd_eq]
    exact fround_mono (by linarith)
  have h2 : fmul (fadd v m) 255 ≤ fmul (fadd w m) 255 := by
    rw [fmul_eq, fmul_eq]
    exact fround_mono (by linarith)
  have h3 := rhalfAway_mono h2
  rw [asU8_f64round, asU8_f64round]
  omega

theorem fdiv100_nonneg (a : ℕ) : 0 ≤ fdiv (a : ℚ) 100 := by
  rw [fdiv_eq]
  exact fround_nonneg _ (by positivity)

theorem fdiv100_le_one {a : ℕ} (h : a ≤ 100) : fdiv (a : ℚ) 100 ≤ 1 := by
  rw [fdiv_eq]
  have h1 : (a : ℚ) / 100 ≤ 1 := by
    rw [div_le_one (by norm_num)]
    exact_mod_cast h
  have h2 := fround_mono h1
  rwa [fround_one] at h2

set_option maxHeartbeats 1000000 in
/-- Every RGB input has a successful `to_hsl` result (the arm-selection
disjunction of the panic-free argument, restated as a reusable fact). -/
theorem to_hsl_isSome (s : Rgb) : s.toHsl.isSome = true := by
  have hd : fdiv ((max (max s.red s.green) s.blue : ℕ) : ℚ) 255 = fdiv (s.red : ℚ) 255 ∨
      fdiv ((max (max s.red s.green) s.blue : ℕ) : ℚ) 255 = fdiv (s.green : ℚ) 255 ∨
      fdiv ((max (max s.red s.green) s.blue : ℕ) : ℚ) 255 = fdiv (s.blue : ℚ) 255 := by
    rcases max_choice (max s.red s.green) s.blue with h | h
    · rcases max_choice s.red s.green with h2 | h2
      · left; rw [h, h2]
      · right; left; rw [h, h2]
    · right; right; rw [h]
  rw [Rgb.toHsl]
  exact isSome_map_of _ _ (ifChain_isSome _ _ _ _ _ _ _ hd)

/-- The lightness field of any successful `Rgb::to_hsl` result is the
common formula `((c_max + c_min) / 2 * 100)` rounded and cast, in every
branch of the hue computation. -/
theorem to_hsl_lightness (a b d : ℕ) (hh : Hsl) (hEq : (Rgb.mk a b d).toHsl = some hh) :
    hh.lightness = asU8 (f64round (fmul (fdiv (fadd
      (fdiv ((max (max a b) d : ℕ) : ℚ) 255)
      (fdiv ((min (min a b) d : ℕ) : ℚ) 255)) 2) 100)) := by
  set M : ℕ := max (max a b) d with hMdef
  set m : ℕ := min (min a b) d with hmdef
  replace hEq : Option.map (fun hue => (⟨hue,
      if qabs (fsub (fdiv (M : ℚ) 255) (fdiv (m : ℚ) 255)) < fEPSILON then 0
      else asU8 (f64round (fmul (fdiv (fsub (fdiv (M : ℚ) 255) (fdiv (m : ℚ) 255))
        (fsub 1 (fsub (fmul 2 (fdiv (fadd (fdiv (M : ℚ) 255) (fdiv (m : ℚ) 255)) 2)) 1)))
        100)),
      asU8 (f64round (fmul (fdiv (fadd (fdiv (M : ℚ) 255) (fdiv (m : ℚ) 255)) 2) 100))⟩ : Hsl))
    (if qabs (fsub (fdiv (M : ℚ) 255) (fdiv (m : ℚ) 255)) < fEPSILON then some 0
     else if fdiv (M : ℚ) 255 = fdiv (a : ℚ) 255 then
       some (asU16 (f64round (fmul 60 (fmod (fdiv (fsub (fdiv (b : ℚ) 255)
         (fdiv (d : ℚ) 255)) (fsub (fdiv (M : ℚ) 255) (fdiv (m : ℚ) 255))) 6))))
     else if fdiv (M : ℚ) 255 = fdiv (b : ℚ) 255 then
       some (asU16 (f64round (fmul 60 (fadd (fdiv (fsub (fdiv (d : ℚ) 255)
         (fdiv (a : ℚ) 255)) (fsub (fdiv (M : ℚ) 255) (fdiv (m : ℚ) 255))) 2))))
     else if fdiv (M : ℚ) 255 = fdiv (d : ℚ) 255 then
       some (asU16 (f64round (fmul 60 (fadd (fdiv (fsub (fdiv (a : ℚ) 255)
         (fdiv (b : ℚ) 255)) (fsub (fdiv (M : ℚ) 255) (fdiv (m : ℚ) 255))) 4))))
     else none) = some hh := hEq
  by_cases h1 : qabs (fsub (fdiv (M : ℚ) 255) (fdiv (m : ℚ) 255)) < fEPSILON
  · rw [if_pos h1, if_pos h1, Option.map_some', Option.some_inj] at hEq
    subst hEq
    rfl
  · rw [if_neg h1, if_neg h1] at hEq
    by_cases h2 : fdiv (M : ℚ) 255 = fdiv (a : ℚ) 255
    · rw [if_pos h2, Option.map_some', Option.some_inj] at hEq
      subst hEq
      rfl
    · rw [if_neg h2] at hEq
      by_cases h3 : fdiv (M : ℚ) 255 = fdiv (b : ℚ) 255
      · rw [if_pos h3, Option.map_some', Option.some_inj] at hEq
        subst hEq
        rfl
      · rw [if_neg h3] at hEq
        by_cases h4 : fdiv (M : ℚ) 255 = fdiv (d : ℚ) 255
        · rw [if_pos h4, Option.map_some', Option.some_inj] at hEq
          subst hEq
          rfl
        · rw [if_neg h4] at hEq
          simp at hEq

set_option maxHeartbeats 1000000 in
/-- The analytic core of the lightness round trip: if `c` and `m` are the
chroma and match values computed by `Hsl::to_rgb` from a lightness
`l ≤ 100` (characterised by the stated bounds and float-value facts),
then re-deriving the lightness from the maximal channel `(c+m)·255` and
the minimal channel `m·255` returns exactly `l`: every rounding error en
route is dominated by the margin `1/2 - 10/51`. -/
theorem lightness_abstract (l : ℕ) (hl : l ≤ 100) (c m : ℚ)
    (hc0 : 0 ≤ c) (hc1 : c ≤ 1)
    (hcA : c ≤ 2 - 2 * fdiv (l : ℚ) 100 + 3 / 9007199254740992)
    (hcB : c ≤ 2 * fdiv (l : ℚ) 100 + 3 / 9007199254740992)
    (hm : |m - (fdiv (l : ℚ) 100 - c / 2)| ≤ 1 / 9007199254740992)
    (hmFP : fround m = m) :
    asU8 (f64round (fmul (fdiv (fadd
      (fdiv ((asU8 (f64round (fmul (fadd c m) 255)) : ℚ)) 255)
      (fdiv ((asU8 (f64round (fmul (fadd 0 m) 255)) : ℚ)) 255)) 2) 100)) = l := by
  have hmm := abs_le.mp hm
  have hL0 : 0 ≤ fdiv (l : ℚ) 100 := fdiv100_nonneg l
  have hL1 : fdiv (l : ℚ) 100 ≤ 1 := fdiv100_le_one hl
  have hLe : -(1 / 9007199254740992 : ℚ) ≤ fdiv (l : ℚ) 100 - (l : ℚ) / 100 ∧
      fdiv (l : ℚ) 100 - (l : ℚ) / 100 ≤ 1 / 9007199254740992 := by
    rw [fdiv_eq]
    have habs : |(l : ℚ) / 100| ≤ 1 := by
      rw [abs_of_nonneg (by positivity), div_le_one (by norm_num)]
      exact_mod_cast hl
    have h2 := fround_err_le habs
    rw [eps53_eq] at h2
    have h3 := abs_le.mp h2
    constructor <;> linarith [h3.1, h3.2]
  have hm_lb : -(3 / 9007199254740992 : ℚ) ≤ m := by linarith [hmm.1, hcB]
  have hm_ub : m ≤ 1 + 1 / 9007199254740992 := by linarith [hmm.2, hc0]
  have hcm_ub : c + m ≤ 1 + 3 / 9007199254740992 := by linarith [hmm.2, hcA]
  have hcm_lb : -(3 / 9007199254740992 : ℚ) ≤ c + m := by linarith [hm_lb]
  have hA : -(2 / 9007199254740992 : ℚ) ≤ fadd c m - (c + m) ∧
      fadd c m - (c + m) ≤ 2 / 9007199254740992 := by
    rw [fadd_eq]
    have habs : |c + m| ≤ 2 := by
      rw [abs_le]
      constructor <;> linarith
    have h2 := fround_err_le habs
    rw [eps53_eq] at h2
    have h3 := abs_le.mp h2
    constructor <;> linarith [h3.1, h3.2]
  have hB : fadd 0 m = m := by rw [fadd_eq, zero_add, hmFP]
  have hY1 : -(1022 / 9007199254740992 : ℚ) ≤ fmul (fadd c m) 255 - 255 * (c + m) ∧
      fmul (fadd c m) 255 - 255 * (c + m) ≤ 1022 / 9007199254740992 := by
    rw [fmul_eq]
    have habs : |fadd c m * 255| ≤ 512 := by
      rw [abs_le]
      constructor <;> linarith [hA.1, hA.2]
    have h2 := fround_err_le habs
    rw [eps53_eq] at h2
    have h3 := abs_le.mp h2
    constructor <;> linarith [h3.1, h3.2, hA.1, hA.2]
  have hY0 : -(512 / 9007199254740992 : ℚ) ≤ fmul (fadd 0 m) 255 - 255 * m ∧
      fmul (fadd 0 m) 255 - 255 * m ≤ 512 / 9007199254740992 := by
    rw [hB, fmul_eq]
    have habs : |m * 255| ≤ 512 := by
      rw [abs_le]
      constructor <;> linarith
    have h2 := fround_err_le habs
    rw [eps53_eq] at h2
    have h3 := abs_le.mp h2
    constructor <;> linarith [h3.1, h3.2]
  have hMZ_le : rhalfAway (fmul (fadd c m) 255) ≤ 255 := by
    apply rhalfAway_le (by norm_num)
    push_cast
    linarith [hY1.2]
  have hMZ_nn : 0 ≤ rhalfAway (fmul (fadd c m) 255) :=
    rhalfAway_nonneg_of_gt (by linarith [hY1.1])
  have hNZ_le : rhalfAway (fmul (fadd 0 m) 255) ≤ 255 := by
    apply rhalfAway_le (by norm_num)
    push_cast
    linarith [hY0.2]
  have hNZ_nn : 0 ≤ rhalfAway (fmul (fadd 0 m) 255) :=
    rhalfAway_nonneg_of_gt (by linarith [hY0.1])
  have hMcast : ((asU8 (f64round (fmul (fadd c m) 255)) : ℕ) : ℚ) =
      ((rhalfAway (fmul (fadd c m) 255) : ℤ) : ℚ) := by
    rw [asU8_f64round]
    have h1 : min (max (rhalfAway (fmul (fadd c m) 255)) 0) 255 =
        rhalfAway (fmul (fadd c m) 255) := by omega
    rw [h1]
    have h2 : ((rhalfAway (fmul (fadd c m) 255)).toNat : ℤ) =
        rhalfAway (fmul (fadd c m) 255) := Int.toNat_of_nonneg hMZ_nn
    exact_mod_cast h2
  have hNcast : ((asU8 (f64round (fmul (fadd 0 m) 255)) : ℕ) : ℚ) =
      ((rhalfAway (fmul (fadd 0 m) 255) : ℤ) : ℚ) := by
    rw [asU8_f64round]
    have h1 : min (max (rhalfAway (fmul (fadd 0 m) 255)) 0) 255 =
        rhalfAway (fmul (fadd 0 m) 255) := by omega
    rw [h1]
    have h2 : ((rhalfAway (fmul (fadd 0 m) 255)).toNat : ℤ) =
        rhalfAway (fmul (fadd 0 m) 255) := Int.toNat_of_nonneg hNZ_nn
    exact_mod_cast h2
  set Mq : ℚ := ((asU8 (f64round (fmul (fadd c m) 255)) : ℕ) : ℚ) with hMqdef
  set Nq : ℚ := ((asU8 (f64round (fmul (fadd 0 m) 255)) : ℕ) : ℚ) with hNqdef
  have hMq0 : 0 ≤ Mq := by
    rw [hMqdef]
    positivity
  have hNq0 : 0 ≤ Nq := by
    rw [hNqdef]
    positivity
  have hMq255 : Mq ≤ 255 := by
    rw [hMcast]
    exact_mod_cast hMZ_le
  have hNq255 : Nq ≤ 255 := by
    rw [hNcast]
    exact_mod_cast hNZ_le
  have hMerr := abs_le.mp (rhalfAway_err (fmul (fadd c m) 255))
  have hNerr := abs_le.mp (rhalfAway_err (fmul (fadd 0 m) 255))
  have hM1 : -(1 / 2 + 1022 / 9007199254740992 : ℚ) ≤ Mq - 255 * (c + m) ∧
      Mq - 255 * (c + m) ≤ 1 / 2 + 1022 / 9007199254740992 := by
    rw [hMcast]
    constructor <;> linarith [hMerr.1, hMerr.2, hY1.1, hY1.2]
  have hN1 : -(1 / 2 + 512 / 9007199254740992 : ℚ) ≤ Nq - 255 * m ∧
      Nq - 255 * m ≤ 1 / 2 + 512 / 9007199254740992 := by
    rw [hNcast]
    constructor <;> linarith [hNerr.1, hNerr.2, hY0.1, hY0.2]
  have hcM : -(1 / 9007199254740992 : ℚ) ≤ fdiv Mq 255 - Mq / 255 ∧
      fdiv Mq 255 - Mq / 255 ≤ 1 / 9007199254740992 := by
    rw [fdiv_eq]
    have habs : |Mq / 255| ≤ 1 := by
      rw [abs_of_nonneg (div_nonneg hMq0 (by norm_num)), div_le_one (by norm_num)]
      exact hMq255
    have h2 := fround_err_le habs
    rw [eps53_eq] at h2
    have h3 := abs_le.mp h2
    constructor <;> linarith [h3.1, h3.2]
  have hcN : -(1 / 9007199254740992 : ℚ) ≤ fdiv Nq 255 - Nq / 255 ∧
      fdiv Nq 255 - Nq / 255 ≤ 1 / 9007199254740992 := by
    rw [fdiv_eq]
    have habs : |Nq / 255| ≤ 1 := by
      rw [abs_of_nonneg (div_nonneg hNq0 (by norm_num)), div_le_one (by norm_num)]
      exact hNq255
    have h2 := fround_err_le habs
    rw [eps53_eq] at h2
    have h3 := abs_le.mp h2
    constructor <;> linarith [h3.1, h3.2]
  have hcM_nn : 0 ≤ fdiv Mq 255 := by
    rw [fdiv_eq]
    exact fround_nonneg _ (div_nonneg hMq0 (by norm_num))
  have hcN_nn : 0 ≤ fdiv Nq 255 := by
    rw [fdiv_eq]
    exact fround_nonneg _ (div_nonneg hNq0 (by norm_num))
  have hS2 : -(3 / 9007199254740992 : ℚ) ≤
      fadd (fdiv Mq 255) (fdiv Nq 255) - (fdiv Mq 255 + fdiv Nq 255) ∧
      fadd (fdiv Mq 255) (fdiv Nq 255) - (fdiv Mq 255 + fdiv Nq 255) ≤
        3 / 9007199254740992 := by
    rw [fadd_eq]
    have habs : |fdiv Mq 255 + fdiv Nq 255| ≤ 3 := by
      rw [abs_le]
      constructor <;> linarith [hcM.1, hcM.2, hcN.1, hcN.2, hMq255, hNq255, hcM_nn, hcN_nn]
    have h2 := fround_err_le habs
    rw [eps53_eq] at h2
    have h3 := abs_le.mp h2
    constructor <;> linarith [h3.1, h3.2]
  have hhalf2 : fdiv (fadd (fdiv Mq 255) (fdiv Nq 255)) 2 =
      fadd (fdiv Mq 255) (fdiv Nq 255) / 2 := by
    rw [fdiv_eq]
    exact fround_fix (FP_half (FP_fadd _ _))
  rw [asU8_f64round]
  have hZl : rhalfAway (fmul (fdiv (fadd (fdiv Mq 255) (fdiv Nq 255)) 2) 100) = (l : ℤ) := by
    apply rhalfAway_eq_of
    rw [fmul_eq, hhalf2]
    have habs : |fadd (fdiv Mq 255) (fdiv Nq 255) / 2 * 100| ≤ 128 := by
      rw [abs_le]
      constructor <;>
        linarith [hS2.1, hS2.2, hcM.1, hcM.2, hcN.1, hcN.2, hMq255, hNq255, hcM_nn, hcN_nn]
    have h2 := fround_err_le habs
    rw [eps53_eq] at h2
    have h3 := abs_le.mp h2
    rw [abs_lt]
    push_cast
    constructor <;>
      linarith [h3.1, h3.2, hS2.1, hS2.2, hcM.1, hcM.2, hcN.1, hcN.2,
        hM1.1, hM1.2, hN1.1, hN1.2, hmm.1, hmm.2, hLe.1, hLe.2]
  rw [hZl]
  omega

/-- The chroma expression of `Hsl::to_rgb` is nonnegative, at most 1,
and at most `2·min(L, 1-L)` up to three ulps. -/
theorem c_facts (l s100 : ℕ) (hl : l ≤ 100) (hs : s100 ≤ 100) :
    0 ≤ fmul (fsub 1 (qabs (fsub (fmul 2 (fdiv (l : ℚ) 100)) 1))) (fdiv (s100 : ℚ) 100) ∧
    fmul (fsub 1 (qabs (fsub (fmul 2 (fdiv (l : ℚ) 100)) 1))) (fdiv (s100 : ℚ) 100) ≤ 1 ∧
    fmul (fsub 1 (qabs (fsub (fmul 2 (fdiv (l : ℚ) 100)) 1))) (fdiv (s100 : ℚ) 100) ≤
      2 - 2 * fdiv (l : ℚ) 100 + 3 / 9007199254740992 ∧
    fmul (fsub 1 (qabs (fsub (fmul 2 (fdiv (l : ℚ) 100)) 1))) (fdiv (s100 : ℚ) 100) ≤
      2 * fdiv (l : ℚ) 100 + 3 / 9007199254740992 := by
  have hL0 := fdiv100_nonneg l
  have hL1 := fdiv100_le_one hl
  have hS0 := fdiv100_nonneg s100
  have hS1 := fdiv100_le_one hs
  have h2L : fmul 2 (fdiv (l : ℚ) 100) = 2 * fdiv (l : ℚ) 100 := by
    rw [fmul_eq]
    exact fround_fix (FP_two_mul (FP_fdiv _ _))
  have hneg1 : fround (-1 : ℚ) = -1 := by
    rw [show (-1 : ℚ) = -(1 : ℚ) from rfl, fround_neg, fround_one]
  have ht1b : -1 ≤ fsub (fmul 2 (fdiv (l : ℚ) 100)) 1 ∧
      fsub (fmul 2 (fdiv (l : ℚ) 100)) 1 ≤ 1 := by
    constructor
    · rw [fsub_eq, h2L]
      have h3 := fround_mono (show (-1 : ℚ) ≤ 2 * fdiv (l : ℚ) 100 - 1 by linarith)
      rwa [hneg1] at h3
    · rw [fsub_eq, h2L]
      have h3 := fround_mono (show 2 * fdiv (l : ℚ) 100 - 1 ≤ (1 : ℚ) by linarith)
      rwa [fround_one] at h3
  have ht1e : -(1 / 9007199254740992 : ℚ) ≤
      fsub (fmul 2 (fdiv (l : ℚ) 100)) 1 - (2 * fdiv (l : ℚ) 100 - 1) ∧
      fsub (fmul 2 (fdiv (l : ℚ) 100)) 1 - (2 * fdiv (l : ℚ) 100 - 1) ≤
        1 / 9007199254740992 := by
    rw [fsub_eq, h2L]
    have habs : |2 * fdiv (l : ℚ) 100 - 1| ≤ 1 := by
      rw [abs_le]
      constructor <;> linarith
    have h2 := fround_err_le habs
    rw [eps53_eq] at h2
    have h3 := abs_le.mp h2
    constructor <;> linarith [h3.1, h3.2]
  have hta0 : 0 ≤ qabs (fsub (fmul 2 (fdiv (l : ℚ) 100)) 1) := by
    rw [qabs_eq]
    exact abs_nonneg _
  have hta1 : qabs (fsub (fmul 2 (fdiv (l : ℚ) 100)) 1) ≤ 1 := by
    rw [qabs_eq, abs_le]
    exact ⟨ht1b.1, ht1b.2⟩
  have hta_lb1 : 2 * fdiv (l : ℚ) 100 - 1 - 1 / 9007199254740992 ≤
      qabs (fsub (fmul 2 (fdiv (l : ℚ) 100)) 1) := by
    rw [qabs_eq]
    have h5 := le_abs_self (fsub (fmul 2 (fdiv (l : ℚ) 100)) 1)
    linarith [ht1e.1]
  have hta_lb2 : 1 - 2 * fdiv (l : ℚ) 100 - 1 / 9007199254740992 ≤
      qabs (fsub (fmul 2 (fdiv (l : ℚ) 100)) 1) := by
    rw [qabs_eq]
    have h5 := neg_abs_le (fsub (fmul 2 (fdiv (l : ℚ) 100)) 1)
    linarith [ht1e.2]
  have hu1b : 0 ≤ fsub 1 (qabs (fsub (fmul 2 (fdiv (l : ℚ) 100)) 1)) ∧
      fsub 1 (qabs (fsub (fmul 2 (fdiv (l : ℚ) 100)) 1)) ≤ 1 := by
    constructor
    · rw [fsub_eq]
      exact fround_nonneg _ (by linarith)
    · rw [fsub_eq]
      have h3 := fround_mono
        (show (1 : ℚ) - qabs (fsub (fmul 2 (fdiv (l : ℚ) 100)) 1) ≤ 1 by linarith)
      rwa [fround_one] at h3
  have hu1e : fsub 1 (qabs (fsub (fmul 2 (fdiv (l : ℚ) 100)) 1)) ≤
      1 - qabs (fsub (fmul 2 (fdiv (l : ℚ) 100)) 1) + 1 / 9007199254740992 := by
    rw [fsub_eq]
    have habs : |1 - qabs (fsub (fmul 2 (fdiv (l : ℚ) 100)) 1)| ≤ 1 := by
      rw [abs_le]
      constructor <;> linarith
    have h2 := fround_err_le habs
    rw [eps53_eq] at h2
    have h3 := abs_le.mp h2
    linarith [h3.1, h3.2]
  have hce : fmul (fsub 1 (qabs (fsub (fmul 2 (fdiv (l : ℚ) 100)) 1))) (fdiv (s100 : ℚ) 100) ≤
      fsub 1 (qabs (fsub (fmul 2 (fdiv (l : ℚ) 100)) 1)) * fdiv (s100 : ℚ) 100 +
        1 / 9007199254740992 := by
    rw [fmul_eq]
    have habs : |fsub 1 (qabs (fsub (fmul 2 (fdiv (l : ℚ) 100)) 1)) *
        fdiv (s100 : ℚ) 100| ≤ 1 := by
      rw [abs_of_nonneg (mul_nonneg hu1b.1 hS0)]
      nlinarith [hu1b.1, hu1b.2, hS0, hS1]
    have h2 := fround_err_le habs
    rw [eps53_eq] at h2
    have h3 := abs_le.mp h2
    linarith [h3.1, h3.2]
  have hcu1 : fsub 1 (qabs (fsub (fmul 2 (fdiv (l : ℚ) 100)) 1)) * fdiv (s100 : ℚ) 100 ≤
      fsub 1 (qabs (fsub (fmul 2 (fdiv (l : ℚ) 100)) 1)) := by
    nlinarith [hu1b.1, hu1b.2, hS0, hS1]
  refine ⟨?_, ?_, ?_, ?_⟩
  · rw [fmul_eq]
    exact fround_nonneg _ (mul_nonneg hu1b.1 hS0)
  · rw [fmul_eq]
    have h3 := fround_mono (show fsub 1 (qabs (fsub (fmul 2 (fdiv (l : ℚ) 100)) 1)) *
        fdiv (s100 : ℚ) 100 ≤ 1 by nlinarith [hu1b.1, hu1b.2, hS0, hS1])
    rwa [fround_one] at h3
  · linarith [hce, hcu1, hu1e, hta_lb1]
  · linarith [hce, hcu1, hu1e, hta_lb2]

/-- The match value `m = L - c/2` of `Hsl::to_rgb` differs from its exact
rational counterpart by at most one ulp, and is itself a float value. -/
theorem m_facts (l : ℕ) (c : ℚ) (hl : l ≤ 100) (hc0 : 0 ≤ c) (hc1 : c ≤ 1)
    (hcF : fround c = c) :
    |fsub (fdiv (l : ℚ) 100) (fdiv c 2) - (fdiv (l : ℚ) 100 - c / 2)| ≤
      1 / 9007199254740992 ∧
    fround (fsub (fdiv (l : ℚ) 100) (fdiv c 2)) = fsub (fdiv (l : ℚ) 100) (fdiv c 2) := by
  have hL0 := fdiv100_nonneg l
  have hL1 := fdiv100_le_one hl
  have hFPc : FP c := by
    rw [← hcF]
    exact FP_fround _
  have hhalfc : fdiv c 2 = c / 2 := by
    rw [fdiv_eq]
    exact fround_fix (FP_half hFPc)
  constructor
  · rw [fsub_eq, hhalfc]
    have habs : |fdiv (l : ℚ) 100 - c / 2| ≤ 1 := by
      rw [abs_le]
      constructor <;> linarith
    have h2 := fround_err_le habs
    rwa [eps53_eq, one_mul] at h2
  · rw [fsub_eq]
    exact fround_idem _

/-- The intermediate `x` of `Hsl::to_rgb` lies between `0` and `c`. -/
theorem x_bounds (c y : ℚ) (hc0 : 0 ≤ c) (hcF : fround c = c) (hy : 0 ≤ y) :
    0 ≤ fmul c (fsub 1 (qabs (fsub (fmod y 2) 1))) ∧
    fmul c (fsub 1 (qabs (fsub (fmod y 2) 1))) ≤ c := by
  have hmod := fmod_two_nonneg hy
  have hneg1 : fround (-1 : ℚ) = -1 := by
    rw [show (-1 : ℚ) = -(1 : ℚ) from rfl, fround_neg, fround_one]
  have hz : -1 ≤ fsub (fmod y 2) 1 ∧ fsub (fmod y 2) 1 ≤ 1 := by
    constructor
    · rw [fsub_eq]
      have h3 := fround_mono (show (-1 : ℚ) ≤ fmod y 2 - 1 by linarith [hmod.1])
      rwa [hneg1] at h3
    · rw [fsub_eq]
      have h3 := fround_mono (show fmod y 2 - 1 ≤ (1 : ℚ) by linarith [hmod.2])
      rwa [fround_one] at h3
  have hq0 : 0 ≤ qabs (fsub (fmod y 2) 1) := by
    rw [qabs_eq]
    exact abs_nonneg _
  have hq1 : qabs (fsub (fmod y 2) 1) ≤ 1 := by
    rw [qabs_eq, abs_le]
    exact ⟨hz.1, hz.2⟩
  have hw : 0 ≤ fsub 1 (qabs (fsub (fmod y 2) 1)) ∧
      fsub 1 (qabs (fsub (fmod y 2) 1)) ≤ 1 := by
    constructor
    · rw [fsub_eq]
      exact fround_nonneg _ (by linarith)
    · rw [fsub_eq]
      have h3 := fround_mono (show (1 : ℚ) - qabs (fsub (fmod y 2) 1) ≤ 1 by linarith)
      rwa [fround_one] at h3
  constructor
  · rw [fmul_eq]
    exact fround_nonneg _ (mul_nonneg hc0 hw.1)
  · rw [fmul_eq]
    have h3 := fround_mono (show c * fsub 1 (qabs (fsub (fmod y 2) 1)) ≤ c by
      nlinarith [hw.1, hw.2])
    rwa [hcF] at h3

/-- Given `F0 ≤ Fx ≤ Fc`, a permutation of the three values has maximum
`Fc` and minimum `F0`. -/
theorem lightness_glue (Fc Fx F0 : ℕ) (h1 : F0 ≤ Fx) (h2 : Fx ≤ Fc) (a b d : ℕ)
    (hperm : (a = Fc ∧ b = Fx ∧ d = F0) ∨ (a = Fx ∧ b = Fc ∧ d = F0) ∨
             (a = F0 ∧ b = Fc ∧ d = Fx) ∨ (a = F0 ∧ b = Fx ∧ d = Fc) ∨
             (a = Fx ∧ b = F0 ∧ d = Fc) ∨ (a = Fc ∧ b = F0 ∧ d = Fx)) :
    max (max a b) d = Fc ∧ min (min a b) d = F0 := by
  rcases hperm with h | h | h | h | h | h <;> obtain ⟨rfl, rfl, rfl⟩ := h <;>
    constructor <;> omega

set_option maxHeartbeats 1000000 in
/-- In any hue sector, the RGB triple built by `Hsl::to_rgb` from the
values `c`, `x`, `0` (in some order) converts back through `Rgb::to_hsl`
with the original lightness recovered exactly. -/
theorem roundtrip_branch (l : ℕ) (hl : l ≤ 100) (c x m : ℚ)
    (hc0 : 0 ≤ c) (hc1 : c ≤ 1)
    (hcA : c ≤ 2 - 2 * fdiv (l : ℚ) 100 + 3 / 9007199254740992)
    (hcB : c ≤ 2 * fdiv (l : ℚ) 100 + 3 / 9007199254740992)
    (hme : |m - (fdiv (l : ℚ) 100 - c / 2)| ≤ 1 / 9007199254740992)
    (hmFP : fround m = m)
    (hx0 : 0 ≤ x) (hxc : x ≤ c)
    (p1 p2 p3 : ℚ)
    (hp : (p1 = c ∧ p2 = x ∧ p3 = 0) ∨ (p1 = x ∧ p2 = c ∧ p3 = 0) ∨
          (p1 = 0 ∧ p2 = c ∧ p3 = x) ∨ (p1 = 0 ∧ p2 = x ∧ p3 = c) ∨
          (p1 = x ∧ p2 = 0 ∧ p3 = c) ∨ (p1 = c ∧ p2 = 0 ∧ p3 = x)) :
    ∃ out : Hsl,
      (Rgb.mk (asU8 (f64round (fmul (fadd p1 m) 255)))
        (asU8 (f64round (fmul (fadd p2 m) 255)))
        (asU8 (f64round (fmul (fadd p3 m) 255)))).toHsl = some out ∧
      out.lightness = l := by
  have h0x := hsl_apply_mono (m := m) hx0
  have hxcm := hsl_apply_mono (m := m) hxc
  obtain ⟨out, hOut⟩ := Option.isSome_iff_exists.mp (to_hsl_isSome
    (Rgb.mk (asU8 (f64round (fmul (fadd p1 m) 255)))
      (asU8 (f64round (fmul (fadd p2 m) 255)))
      (asU8 (f64round (fmul (fadd p3 m) 255)))))
  refine ⟨out, hOut, ?_⟩
  have hlig := to_hsl_lightness _ _ _ _ hOut
  have hcore := lightness_abstract l hl c m hc0 hc1 hcA hcB hme hmFP
  rcases hp with h | h | h | h | h | h <;> obtain ⟨rfl, rfl, rfl⟩ := h
  · obtain ⟨hmax, hmin⟩ := lightness_glue _ _ _ h0x hxcm _ _ _ (Or.inl ⟨rfl, rfl, rfl⟩)
    rw [hlig, hmax, hmin]
    exact hcore
  · obtain ⟨hmax, hmin⟩ := lightness_glue _ _ _ h0x hxcm _ _ _
      (Or.inr (Or.inl ⟨rfl, rfl, rfl⟩))
    rw [hlig, hmax, hmin]
    exact hcore
  · obtain ⟨hmax, hmin⟩ := lightness_glue _ _ _ h0x hxcm _ _ _
      (Or.inr (Or.inr (Or.inl ⟨rfl, rfl, rfl⟩)))
    rw [hlig, hmax, hmin]
    exact hcore
  · obtain ⟨hmax, hmin⟩ := lightness_glue _ _ _ h0x hxcm _ _ _
      (Or.inr (Or.inr (Or.inr (Or.inl ⟨rfl, rfl, rfl⟩))))
    rw [hlig, hmax, hmin]
    exact hcore
  · obtain ⟨hmax, hmin⟩ := lightness_glue _ _ _ h0x hxcm _ _ _
      (Or.inr (Or.inr (Or.inr (Or.inr (Or.inl ⟨rfl, rfl, rfl⟩)))))
    rw [hlig, hmax, hmin]
    exact hcore
  · obtain ⟨hmax, hmin⟩ := lightness_glue _ _ _ h0x hxcm _ _ _
      (Or.inr (Or.inr (Or.inr (Or.inr (Or.inr ⟨rfl, rfl, rfl⟩)))))
    rw [hlig, hmax, hmin]
    exact hcore

set_option maxHeartbeats 1000000 in
/-- Claim C2 (amended): for every valid HSL input whose hue is below 360
(the value 360 itself faults, see C1), the round trip through
`to_rgb` and back through `to_hsl` is defined and reproduces the
lightness exactly; hue and saturation are not reproduced in general
(see the counterexample `hsl(240, 100, 0)`). -/
theorem C2_amended (s : Hsl) (hhue : s.hue < 360) (hsat : s.saturation ≤ 100)
    (hlig : s.lightness ≤ 100) :
    ∃ r : Rgb, s.toRgb = some r ∧ ∃ out : Hsl, r.toHsl = some out ∧
      out.lightness = s.lightness := by
  set cQ : ℚ := fmul (fsub 1 (qabs (fsub (fmul 2 (fdiv (s.lightness : ℚ) 100)) 1)))
    (fdiv (s.saturation : ℚ) 100) with hcQ
  set xQ : ℚ := fmul cQ (fsub 1 (qabs (fsub (fmod (fdiv (s.hue : ℚ) 60) 2) 1))) with hxQ
  set mQ : ℚ := fsub (fdiv (s.lightness : ℚ) 100) (fdiv cQ 2) with hmQ
  have hcf := c_facts s.lightness s.saturation hlig hsat
  rw [← hcQ] at hcf
  obtain ⟨hc0, hc1, hcA, hcB⟩ := hcf
  have hFc : fround cQ = cQ := by
    rw [hcQ]
    exact fround_fix (FP_fmul _ _)
  have hmf := m_facts s.lightness cQ hlig hc0 hc1 hFc
  rw [← hmQ] at hmf
  obtain ⟨hme, hmFP⟩ := hmf
  have hy0 : 0 ≤ fdiv (s.hue : ℚ) 60 := by
    rw [fdiv_eq]
    exact fround_nonneg _ (by positivity)
  have hxb := x_bounds cQ (fdiv (s.hue : ℚ) 60) hc0 hFc hy0
  rw [← hxQ] at hxb
  obtain ⟨hx0, hxc⟩ := hxb
  have hToRgb : s.toRgb = Option.map (fun t : ℚ × ℚ × ℚ =>
      (Rgb.mk (asU8 (f64round (fmul (fadd t.1 mQ) 255)))
        (asU8 (f64round (fmul (fadd t.2.1 mQ) 255)))
        (asU8 (f64round (fmul (fadd t.2.2 mQ) 255)))))
    (if s.hue < 60 then some (cQ, xQ, 0)
     else if s.hue < 120 then some (xQ, cQ, 0)
     else if s.hue < 180 then some (0, cQ, xQ)
     else if s.hue < 240 then some (0, xQ, cQ)
     else if s.hue < 300 then some (xQ, 0, cQ)
     else if s.hue < 360 then some (cQ, 0, xQ)
     else none) := rfl
  by_cases h1 : s.hue < 60
  · rw [if_pos h1, Option.map_some'] at hToRgb
    exact ⟨_, hToRgb, roundtrip_branch s.lightness hlig cQ xQ mQ hc0 hc1 hcA hcB hme hmFP
      hx0 hxc cQ xQ 0 (Or.inl ⟨rfl, rfl, rfl⟩)⟩
  · rw [if_neg h1] at hToRgb
    by_cases h2 : s.hue < 120
    · rw [if_pos h2, Option.map_some'] at hToRgb
      exact ⟨_, hToRgb, roundtrip_branch s.lightness hlig cQ xQ mQ hc0 hc1 hcA hcB hme hmFP
        hx0 hxc xQ cQ 0 (Or.inr (Or.inl ⟨rfl, rfl, rfl⟩))⟩
    · rw [if_neg h2] at hToRgb
      by_cases h3 : s.hue < 180
      · rw [if_pos h3, Option.map_some'] at hToRgb
        exact ⟨_, hToRgb, roundtrip_branch s.lightness hlig cQ xQ mQ hc0 hc1 hcA hcB hme hmFP
          hx0 hxc 0 cQ xQ (Or.inr (Or.inr (Or.inl ⟨rfl, rfl, rfl⟩)))⟩
      · rw [if_neg h3] at hToRgb
        by_cases h4 : s.hue < 240
        · rw [if_pos h4, Option.map_some'] at hToRgb
          exact ⟨_, hToRgb, roundtrip_branch s.lightness hlig cQ xQ mQ hc0 hc1 hcA hcB hme
            hmFP hx0 hxc 0 xQ cQ (Or.inr (Or.inr (Or.inr (Or.inl ⟨rfl, rfl, rfl⟩))))⟩
        · rw [if_neg h4] at hToRgb
          by_cases h5 : s.hue < 300
          · rw [if_pos h5, Option.map_some'] at hToRgb
            exact ⟨_, hToRgb, roundtrip_branch s.lightness hlig cQ xQ mQ hc0 hc1 hcA hcB hme
              hmFP hx0 hxc xQ 0 cQ (Or.inr (Or.inr (Or.inr (Or.inr
                (Or.inl ⟨rfl, rfl, rfl⟩)))))⟩
          · rw [if_neg h5, if_pos hhue, Option.map_some'] at hToRgb
            exact ⟨_, hToRgb, roundtrip_branch s.lightness hlig cQ xQ mQ hc0 hc1 hcA hcB hme
              hmFP hx0 hxc cQ 0 xQ (Or.inr (Or.inr (Or.inr (Or.inr
                (Or.inr ⟨rfl, rfl, rfl⟩)))))⟩

/-- Witness for C2 (amended) at the concrete input `hsl(120, 50, 50)`. -/
theorem C2_amended_witness :
    (Hsl.new_unchecked 120 50 50).hue < 360 ∧
    (Hsl.new_unchecked 120 50 50).saturation ≤ 100 ∧
    (Hsl.new_unchecked 120 50 50).lightness ≤ 100 ∧
    ∃ r : Rgb, (Hsl.new_unchecked 120 50 50).toRgb = some r ∧
      ∃ out : Hsl, r.toHsl = some out ∧
        out.lightness = (Hsl.new_unchecked 120 50 50).lightness :=
  ⟨by decide, by decide, by decide,
    C2_amended (Hsl.new_unchecked 120 50 50) (by decide) (by decide) (by decide)⟩
